import Mathlib

/-!
# Verification of the rita recursive render / parse / diff engine

Shallow embedding of the core logic of the `rita` repository:

* `src/rita/helm.py` — `render_recursive` and its child-gathering loop
  (worker-pool error aggregation, auth-expiry propagation, depth bound);
* `src/rita/argocd.py` — Application / ApplicationSet parsing, values-file
  extraction, template-variable resolution;
* `src/rita/models.py` — `ArgoAppSetConfig.to_app_configs`;
* `src/rita/commands/render.py` — `_diff_manifests` and `_get_manifest_name`.

Python strings are modelled as Lean `String`/`List Char`; Python dicts that
the code only reads through `.get` are modelled as structures with `Option`
fields (`.getD` giving the Python default) or as association lists with
first-match lookup.  External collaborators (the YAML loader, Python's
`hash`, `difflib.unified_diff`) are parameters of the embedded functions.
Unbounded scans over strings (Python `re.sub` / `str.replace` / `str.split`)
are implemented with an explicit fuel argument that the exported wrappers
instantiate with the string length; fuel-irrelevance lemmas below show the
result does not depend on the fuel once it covers the input.
-/

namespace Rita

/-! ## Python string primitives -/

/-- The backtick character (written via its code point). -/
def btick : Char := Char.ofNat 96

/-- ASCII whitespace recognised by Python `str.strip` / `str.rstrip`. -/
def isPySpace (c : Char) : Bool :=
  c = ' ' || c = '\t' || c = '\n' || c = '\x0d' || c = '\x0b' || c = '\x0c'

/-- Python `str.strip()` on a character list. -/
def pyStripL (l : List Char) : List Char :=
  ((l.dropWhile isPySpace).reverse.dropWhile isPySpace).reverse

/-- Python `str.strip()`. -/
def pyStrip (s : String) : String :=
  String.mk (pyStripL s.data)

/-- Python `str.rstrip()`. -/
def pyRstrip (s : String) : String :=
  String.mk ((s.data.reverse.dropWhile isPySpace).reverse)

/-- Does the character list `l` start with `p`? -/
def startsWithL : List Char → List Char → Bool
  | _, [] => true
  | [], _ :: _ => false
  | c :: l, d :: p => c = d && startsWithL l p

/-- Does `l` contain `p` as a contiguous sublist? -/
def containsSubL : List Char → List Char → Bool
  | [], p => p.isEmpty
  | c :: l, p => startsWithL (c :: l) p || containsSubL l p

/-- One step of Python `str.replace`: drop a leading occurrence of `pat`. -/
def dropPatL : List Char → List Char → List Char
  | l, [] => l
  | l, _ :: p => match l with
    | [] => []
    | _ :: l => dropPatL l p

/-- Fuel-indexed Python `str.replace(pat, repl)`: replace every non-overlapping
occurrence of the (nonempty) pattern, scanning left to right. -/
def pyReplaceF (pat repl : List Char) : Nat → List Char → List Char
  | 0, l => l
  | _ + 1, [] => []
  | fuel + 1, c :: l =>
    if startsWithL (c :: l) pat then
      repl ++ pyReplaceF pat repl fuel (dropPatL (c :: l) pat)
    else
      c :: pyReplaceF pat repl fuel l

/-- Python `str.replace(pat, repl)` for a nonempty pattern. -/
def pyReplace (s pat repl : String) : String :=
  String.mk (pyReplaceF pat.data repl.data s.data.length s.data)

/-- Fuel-indexed Python `str.split(sep)` for a nonempty separator:
split on every non-overlapping occurrence, scanning left to right.
`acc` holds the (reversed) characters of the current piece. -/
def pySplitF (sep : List Char) : Nat → List Char → List Char → List String
  | 0, acc, l => [String.mk (acc.reverse ++ l)]
  | _ + 1, acc, [] => [String.mk acc.reverse]
  | fuel + 1, acc, c :: l =>
    if startsWithL (c :: l) sep then
      String.mk acc.reverse :: pySplitF sep fuel [] (dropPatL (c :: l) sep)
    else
      pySplitF sep fuel (c :: acc) l

/-- Python `str.split(sep)` for a nonempty separator. -/
def pySplit (s sep : String) : List String :=
  pySplitF sep.data s.data.length [] s.data

/-- Characters Python `str.splitlines` treats as line boundaries
(`\r\n` is handled separately as a two-character boundary). -/
def isLineBreak (c : Char) : Bool :=
  c = '\n' || c = '\x0d' || c = '\x0b' || c = '\x0c' ||
  c = '\x1c' || c = '\x1d' || c = '\x1e' || c = '\x85' ||
  c = '\u2028' || c = '\u2029'

/-- Python `str.splitlines(keepends=True)` on a character list; `acc` holds
the (reversed) characters of the current line. -/
def pySplitLinesL (acc : List Char) : List Char → List String
  | [] => if acc.isEmpty then [] else [String.mk acc.reverse]
  | '\x0d' :: '\n' :: l => String.mk (acc.reverse ++ ['\x0d', '\n']) :: pySplitLinesL [] l
  | c :: l =>
    if isLineBreak c then
      String.mk (acc.reverse ++ [c]) :: pySplitLinesL [] l
    else
      pySplitLinesL (c :: acc) l

/-- Python `str.splitlines(keepends=True)`. -/
def pySplitLines (s : String) : List String :=
  pySplitLinesL [] s.data

/-- First-match lookup in an association list (Python `dict.get(k)` for the
dicts built by the embedded code, whose keys are unique). -/
def lookupAC {α : Type} (m : List (String × α)) (k : String) : Option α :=
  (m.find? (fun kv => kv.1 = k)).map (fun kv => kv.2)

/-- Python `dict.get(k, d)` on an association list of strings. -/
def pyGet (m : List (String × String)) (k d : String) : String :=
  (lookupAC m k).getD d

/-- Python `dict[k] = v`: replace the first binding of `k` in place, or
append a new binding at the end (insertion-ordered dict update). -/
def upsertAC {α : Type} : List (String × α) → String → α → List (String × α)
  | [], k, v => [(k, v)]
  | (k0, v0) :: m, k, v =>
    if k0 = k then (k, v) :: m else (k0, v0) :: upsertAC m k v

/-! ## Recursive expansion engine (`src/rita/helm.py`, `render_recursive`)

The engine is modelled over an abstract tree of applications: each node
carries the app name, the outcome of `render_helm_chart_to_string` for that
app (either a `(success, message)` pair or a raised Python exception), and
the child apps that parsing its rendered output yields
(`parse_argocd_resources_from_manifest` followed by
`ArgoAppSetConfig.to_app_configs` for discovered ApplicationSets).
Filesystem writes (`_write_rendered_output`,
`_write_combined_recursive_output`) have no effect on the returned triple
and are not modelled. -/

/-- A Python exception as seen by the worker-pool handler: either the
`AWSTokenExpiredError` from `src/rita/storage.py` (with its optional
profile), or any other exception, with its message and its `__cause__`. -/
inductive PyExc where
  | awsTokenExpired : Option String → PyExc
  | other : String → Option PyExc → PyExc

/-- `str(e)` for a modelled exception; for `AWSTokenExpiredError` this is the
message built in its `__init__` (`src/rita/storage.py`). -/
def excMsg : PyExc → String
  | .awsTokenExpired (some profile) =>
    "AWS SSO token has expired. Run: aws sso login --profile " ++ profile
  | .awsTokenExpired none => "AWS SSO token has expired. Run: aws sso login"
  | .other msg _ => msg

/-- `isinstance(e, AWSTokenExpiredError)`. -/
def isAWSExpired : PyExc → Bool
  | .awsTokenExpired _ => true
  | .other _ _ => false

/-- `e.__cause__` (one level, as inspected by the worker-pool handler). -/
def excCause : PyExc → Option PyExc
  | .awsTokenExpired _ => none
  | .other _ cause => cause

/-- The worker-pool `except` clause of `render_recursive`: the exception the
handler re-raises for `e`, if any (`e` itself when it is an
`AWSTokenExpiredError`, else `e.__cause__` when that is one). -/
def poolReRaise (e : PyExc) : Option PyExc :=
  if isAWSExpired e then some e
  else match excCause e with
    | some c => if isAWSExpired c then some c else none
    | none => none

/-- An application node for recursive rendering: name, the outcome of
`render_helm_chart_to_string` (`.error` models a raised exception), and the
children discovered in its rendered output. -/
inductive AppTree where
  | node : String → Except PyExc (Bool × String) → List AppTree → AppTree

/-- Name of an application node. -/
def AppTree.name : AppTree → String
  | .node n _ _ => n

/-- Render outcome of an application node. -/
def AppTree.render : AppTree → Except PyExc (Bool × String)
  | .node _ r _ => r

/-- Children of an application node. -/
def AppTree.children : AppTree → List AppTree
  | .node _ _ cs => cs

/-- The `as_completed` gathering loop of `render_recursive` in its parallel
(worker-pool) branch, over the per-child results (`_render_child_app`
returns `(app_name, success, msg, grandchildren)`; a raised exception is an
`.error`).  Completion order is modelled as submission order.  Returns the
extra rendered names and the collected `childName: message` entries, or the
re-raised exception. -/
def poolGather :
    List (String × Except PyExc (Bool × String × List String)) →
    Except PyExc (List String × List String)
  | [] => .ok ([], [])
  | (n, r) :: rest =>
    match r with
    | .ok (childSuccess, childMsg, grandchildren) =>
      match poolGather rest with
      | .error e => .error e
      | .ok (rendered, errs) =>
        if childSuccess then .ok (grandchildren ++ rendered, errs)
        else .ok (rendered, (n ++ ": " ++ childMsg) :: errs)
    | .error e =>
      match poolReRaise e with
      | some e2 => .error e2
      | none =>
        match poolGather rest with
        | .error e2 => .error e2
        | .ok (rendered, errs) => .ok (rendered, (n ++ ": " ++ excMsg e) :: errs)

/-- The sequential child loop of `render_recursive` (taken when `parallel`
is false or there is at most one child): no `try`/`except`, so any raised
exception propagates unchanged. -/
def seqGather :
    List (String × Except PyExc (Bool × String × List String)) →
    Except PyExc (List String × List String)
  | [] => .ok ([], [])
  | (n, r) :: rest =>
    match r with
    | .error e => .error e
    | .ok (childSuccess, childMsg, grandchildren) =>
      match seqGather rest with
      | .error e => .error e
      | .ok (rendered, errs) =>
        if childSuccess then .ok (grandchildren ++ rendered, errs)
        else .ok (rendered, (n ++ ": " ++ childMsg) :: errs)

/-- `f"Max recursion depth ({max_depth}) reached"`. -/
def maxDepthMsg (maxDepth : Nat) : String :=
  s!"Max recursion depth ({maxDepth}) reached"

/-- The level result message of `render_recursive` when the node has
children: `f"Rendered with ... nested resources..."` with the aggregated
`(errors: ...)` suffix when some children failed. -/
def levelMsg (renderedExtra errs : List String) : String :=
  let nested := renderedExtra.length
  let errSuffix :=
    if errs.isEmpty then ""
    else " (errors: " ++ String.intercalate "; " errs ++ ")"
  s!"Rendered with {nested} nested resources{errSuffix}"

/-- `render_recursive`, indexed by the remaining depth budget
`fuel = max_depth - current_depth` (the code recurses with
`current_depth + 1`, so the budget decreases by one per level; `fuel = 0`
is exactly `current_depth >= max_depth`).  `maxDepth` is carried only for
the depth-limit message; `parallel` selects the worker-pool branch, and
child recursion always uses the defaults `parallel=True, max_workers=4` of
`render_recursive` (as `_render_child_app` passes neither). -/
def renderRecAux (maxDepth : Nat) (parallel : Bool) :
    Nat → AppTree → Except PyExc (Bool × String × List String)
  | 0, _ => .ok (true, maxDepthMsg maxDepth, [])
  | fuel + 1, .node name render children =>
    match render with
    | .error e => .error e
    | .ok (false, msg) => .ok (false, msg, [])
    | .ok (true, msg) =>
      if children.isEmpty then
        .ok (true, msg, [name])
      else
        let childResults := children.map
          (fun c => (c.name, renderRecAux maxDepth true fuel c))
        let gathered :=
          if parallel && decide (1 < children.length) then poolGather childResults
          else seqGather childResults
        match gathered with
        | .error e => .error e
        | .ok (renderedExtra, errs) =>
          .ok (true, levelMsg renderedExtra errs, name :: renderedExtra)

/-- `render_recursive(app, ..., max_depth, current_depth, parallel, ...)`.
The `current_depth >= max_depth` early return mirrors lines 901–902 of
`src/rita/helm.py`; otherwise the depth budget drives the recursion. -/
def render_recursive (app : AppTree) (maxDepth currentDepth : Nat)
    (parallel : Bool) : Except PyExc (Bool × String × List String) :=
  if maxDepth ≤ currentDepth then .ok (true, maxDepthMsg maxDepth, [])
  else renderRecAux maxDepth parallel (maxDepth - currentDepth) app

/-! ## Descriptor parsing (`src/rita/argocd.py`, `src/rita/models.py`)

YAML documents are modelled as structures whose `Option` fields reflect the
`dict.get` calls the parser performs (`none` is an absent key, `.getD` the
Python default).  Generator elements, whose full key set is passed through
as `extra_fields`, are modelled as string association lists.  An opaque
`valuesObject` payload is modelled as an association list as well.
Filesystem probes (`_is_kustomize_directory`, `chart_path_resolver(...)
.exists()`) are boolean-valued parameters.  `source_file` (a `Path` kept
only for diagnostics) is not modelled. -/

/-- Python `str.startswith`. -/
def pyStartsWith (s pat : String) : Bool :=
  startsWithL s.data pat.data

/-- Opaque inline-values payload (`helm.valuesObject`). -/
abbrev VObj := List (String × String)

/-- `metadata` of an Argo document (fields read via `.get`). -/
structure MetadataDoc where
  name : Option String
  ns : Option String
deriving DecidableEq

/-- `spec.destination` / `template.spec.destination`. -/
structure DestDoc where
  server : Option String
  ns : Option String
deriving DecidableEq

/-- A `helm:` block of a source entry. -/
structure HelmDoc where
  valueFiles : List String
  valuesObject : Option VObj
  releaseName : Option String
deriving DecidableEq

/-- The empty dict default for a missing `helm:` block. -/
def emptyHelmDoc : HelmDoc := ⟨[], none, none⟩

/-- One entry of `spec.source`/`spec.sources`.  `chartKey` is the value of
the `chart` key when that key is present (`"chart" in src`). -/
structure SourceDoc where
  chartKey : Option String
  repoURL : Option String
  path : Option String
  ref : Option String
  targetRevision : Option String
  helm : Option HelmDoc
deriving DecidableEq

/-- An Application `spec`. -/
structure AppSpecDoc where
  destination : Option DestDoc
  source : Option SourceDoc
  sources : List SourceDoc
deriving DecidableEq

/-- An Application document (after `_find_application_document`). -/
structure AppDoc where
  metadata : Option MetadataDoc
  spec : Option AppSpecDoc
deriving DecidableEq

/-- The parsed Application configuration (`ArgoAppConfig` in
`src/rita/models.py`).  `ociChartName` is stored after the
`__post_init__` default (`chart_name` when the constructor receives
`None`), so it is a plain string here. -/
structure ArgoAppConfig where
  name : String
  chartRepo : String
  chartName : String
  chartVersion : String
  valuesFiles : List String
  ns : String
  releaseName : String
  isLocalChart : Bool
  ociChartName : String
  valuesObject : Option VObj
  isKustomize : Bool
  kustomizePath : Option String
  plainManifestsPath : Option String
deriving DecidableEq

/-- `spec.get("sources", [])` normalised with the singular `source` form:
`if source and not sources: sources = [source]`. -/
def normalizeSources (spec : AppSpecDoc) : List SourceDoc :=
  match spec.source with
  | some src => if spec.sources.isEmpty then [src] else spec.sources
  | none => spec.sources

/-- `_find_chart_source`: the first source with a `chart` key, else the
first with a `path` key. -/
def findChartSource (spec : AppSpecDoc) : Option SourceDoc :=
  let sources := normalizeSources spec
  match sources.find? (fun s => s.chartKey.isSome) with
  | some s => some s
  | none => sources.find? (fun s => s.path.isSome)

/-- The source-classification loop of `parse_argocd_application`
(`src/rita/argocd.py` lines 175–184), with its running state
`(helm_source, kustomize_source_path, plain_manifests_path)` made explicit:
the first `chart`-bearing entry is kept as the Helm source, while every
`path`-bearing entry without a truthy `ref` overwrites the Kustomize or
plain-manifests path according to `_is_kustomize_directory`. -/
def classifySources (isKustomizeDir : String → Bool) :
    List SourceDoc → Option SourceDoc → Option String → Option String →
    Option SourceDoc × Option String × Option String
  | [], h, k, p => (h, k, p)
  | src :: rest, h, k, p =>
    let h2 := if src.chartKey.isSome && h.isNone then some src else h
    let kp2 :=
      if src.path.isSome && (src.ref.getD "") = "" then
        match src.path with
        | some path =>
          if path = "" then (k, p)
          else if isKustomizeDir path then (some path, p) else (k, some path)
        | none => (k, p)
      else (k, p)
    classifySources isKustomizeDir rest h2 kp2.1 kp2.2

/-- `_extract_values_files`: each `helm.valueFiles` entry that starts with
the `$values/` alias has **every** occurrence of `"$values/"` removed by
Python `str.replace`; other entries pass through unchanged. -/
def extractValuesFiles (helmConfig : HelmDoc) : List String :=
  helmConfig.valueFiles.map
    (fun vf => if pyStartsWith vf "$values/" then pyReplace vf "$values/" "" else vf)

/-- `_extract_local_chart_name`: the last `/`-separated segment. -/
def extractLocalChartName (chartName : String) : String :=
  if containsSubL chartName.data ['/'] then (pySplit chartName "/").getLastD ""
  else chartName

/-- `parse_argocd_application` (`src/rita/argocd.py` lines 149–233), from
the document found by `_find_application_document` onward.
`isKustomizeDir` models `_is_kustomize_directory` and `chartExists` models
`chart_path_resolver(name).exists()`. -/
def parse_argocd_application (doc : AppDoc)
    (isKustomizeDir chartExists : String → Bool) : Option ArgoAppConfig :=
  let metadata := doc.metadata.getD ⟨none, none⟩
  let spec := doc.spec.getD ⟨none, none, []⟩
  let name := metadata.name.getD ""
  let destination := spec.destination.getD ⟨none, none⟩
  let ns := destination.ns.getD "default"
  match findChartSource spec with
  | none => none
  | some _ =>
    let sources := normalizeSources spec
    let cls := classifySources isKustomizeDir sources none none none
    let helmSource := cls.1
    let kustomizePath := cls.2.1
    let plainPath := cls.2.2
    if helmSource.isNone && kustomizePath.isSome then
      some
        { name := name, chartRepo := "", chartName := "", chartVersion := ""
          valuesFiles := [], ns := ns, releaseName := name
          isLocalChart := false, ociChartName := "", valuesObject := none
          isKustomize := true, kustomizePath := kustomizePath
          plainManifestsPath := none }
    else
      let chartRepo := (helmSource.bind (fun s => s.repoURL)).getD ""
      let chartName := (helmSource.bind (fun s => s.chartKey)).getD ""
      let chartVersion :=
        match helmSource with
        | some s => s.targetRevision.getD "latest"
        | none => "latest"
      let helmConfig := (helmSource.bind (fun s => s.helm)).getD emptyHelmDoc
      let releaseName := helmConfig.releaseName.getD name
      let valuesFiles := extractValuesFiles helmConfig
      let valuesObject := helmConfig.valuesObject
      let localChartName := extractLocalChartName chartName
      let isLocalChart := if chartName = "" then false else chartExists localChartName
      some
        { name := name, chartRepo := chartRepo
          chartName := if isLocalChart then localChartName else chartName
          chartVersion := chartVersion, valuesFiles := valuesFiles, ns := ns
          releaseName := releaseName, isLocalChart := isLocalChart
          ociChartName := chartName, valuesObject := valuesObject
          isKustomize := kustomizePath.isSome, kustomizePath := kustomizePath
          plainManifestsPath := plainPath }

/-! ### ApplicationSet parsing and expansion -/

/-- One raw list-generator element: the element dict as an association
list (its full key set is retained as `extra_fields`). -/
abbrev RawElem := List (String × String)

/-- A generator entry; `listElements` is `gen["list"]["elements"]` when the
generator has a `list` key (with `.get("elements", [])` applied). -/
structure GenDoc where
  listElements : Option (List RawElem)
deriving DecidableEq

/-- `template.spec` of an ApplicationSet. -/
structure AppSetTemplateSpecDoc where
  destination : Option DestDoc
  sources : List SourceDoc
deriving DecidableEq

/-- `template` of an ApplicationSet. -/
structure AppSetTemplateDoc where
  spec : Option AppSetTemplateSpecDoc
deriving DecidableEq

/-- An ApplicationSet `spec`. -/
structure AppSetSpecDoc where
  generators : List GenDoc
  template : Option AppSetTemplateDoc
deriving DecidableEq

/-- An ApplicationSet document (after `_find_applicationset_document`). -/
structure AppSetDoc where
  metadata : Option MetadataDoc
  spec : Option AppSetSpecDoc
deriving DecidableEq

/-- `ArgoAppSetGeneratorElement` (`src/rita/models.py`). -/
structure ArgoAppSetGeneratorElement where
  name : String
  chartName : String
  chartVersion : String
  valuesFile : String
  ns : String
  wave : String
  dependsOn : Option String
  extraFields : RawElem
deriving DecidableEq

/-- `ArgoAppSetConfig` (`src/rita/models.py`); `templateSpec` is the raw
`template.spec` dict the code retains. -/
structure ArgoAppSetConfig where
  name : String
  ns : String
  chartRepo : String
  destinationServer : String
  destinationNamespace : String
  generatorElements : List ArgoAppSetGeneratorElement
  templateSpec : AppSetTemplateSpecDoc
  valuesOverlay : Option VObj
deriving DecidableEq

/-- Construction of one `ArgoAppSetGeneratorElement` from a raw element
(`parse_applicationset_from_manifest`, inner loop). -/
def mkGenElem (ns : String) (elem : RawElem) : ArgoAppSetGeneratorElement :=
  { name := pyGet elem "name" "", chartName := pyGet elem "origin" ""
    chartVersion := pyGet elem "version" "", valuesFile := pyGet elem "valuesFile" ""
    ns := ns, wave := pyGet elem "wave" "0"
    dependsOn := lookupAC elem "dependsOn", extraFields := elem }

/-- The generator loop: elements of every `list` generator, in order. -/
def rawGenElements : List GenDoc → List RawElem
  | [] => []
  | g :: rest => (g.listElements.getD []) ++ rawGenElements rest

/-- The template-sources loop: the first `chart`-bearing entry gives the
shared `chart_repo` and the `valuesObject` overlay. -/
def appsetChartLoop : List SourceDoc → String × Option VObj
  | [] => ("", none)
  | s :: rest =>
    if s.chartKey.isSome then (s.repoURL.getD "", (s.helm.getD emptyHelmDoc).valuesObject)
    else appsetChartLoop rest

/-- `parse_applicationset_from_manifest` (`src/rita/argocd.py` lines
235–303), from the document found by `_find_applicationset_document`
onward (the same construction as `_parse_applicationset_from_doc`). -/
def parse_applicationset (doc : AppSetDoc) : ArgoAppSetConfig :=
  let metadata := doc.metadata.getD ⟨none, none⟩
  let spec := doc.spec.getD ⟨[], none⟩
  let name := metadata.name.getD ""
  let ns := metadata.ns.getD "argocd"
  let generatorElements := (rawGenElements spec.generators).map (mkGenElem ns)
  let templateSpec := (spec.template.getD ⟨none⟩).spec.getD ⟨none, []⟩
  let destination := templateSpec.destination.getD ⟨none, none⟩
  let destServer := destination.server.getD "https://kubernetes.default.svc"
  let destNamespace := destination.ns.getD "default"
  let repoOverlay := appsetChartLoop templateSpec.sources
  { name := name, ns := ns, chartRepo := repoOverlay.1
    destinationServer := destServer, destinationNamespace := destNamespace
    generatorElements := generatorElements, templateSpec := templateSpec
    valuesOverlay := repoOverlay.2 }

/-- `ArgoAppSetConfig.to_app_configs` (`src/rita/models.py` lines 79–111);
`chartExists` models `chart_path_resolver(origin).exists()`. -/
def to_app_configs (cfg : ArgoAppSetConfig) (chartExists : String → Bool) :
    List ArgoAppConfig :=
  cfg.generatorElements.map (fun elem =>
    let origin := (lookupAC elem.extraFields "origin").getD elem.chartName
    let isLocal := chartExists origin
    let valuesFiles :=
      if elem.valuesFile = "" then []
      else ["kubernetes/" ++ origin ++ "/" ++ elem.valuesFile]
    { name := elem.name, chartRepo := cfg.chartRepo, chartName := origin
      chartVersion := elem.chartVersion, valuesFiles := valuesFiles
      ns := cfg.destinationNamespace, releaseName := elem.name
      isLocalChart := isLocal, ociChartName := "helm-charts/" ++ origin
      valuesObject := cfg.valuesOverlay, isKustomize := false
      kustomizePath := none, plainManifestsPath := none })

/-! ## Template-variable resolution (`src/rita/argocd.py`,
`resolve_template_variables`)

The two `re.sub` calls are modelled by direct left-to-right scans with
Python's leftmost-match rule; the lazy group `(.+?)` takes the shortest
nonempty extension (of non-newline characters) after which the rest of the
pattern matches, and `\s*` is deterministic in both patterns because the
character that must follow it is never whitespace. -/

/-- Match a literal pattern at the head of `l`, returning the remainder. -/
def expectL : List Char → List Char → Option (List Char)
  | [], l => some l
  | _ :: _, [] => none
  | d :: p, c :: l => if c = d then expectL p l else none

/-- Greedy `\s*`. -/
def skipWsL (l : List Char) : List Char :=
  l.dropWhile isPySpace

/-- Lazy group search for `\{\{(.+?)\}\}`: the shortest nonempty run of
non-newline characters followed by `}}`.  Returns the group and the
remainder after the closing braces. -/
def findCloseSub : List Char → Option (List Char × List Char)
  | [] => none
  | a :: rest =>
    if a = '\n' then none
    else
      match expectL ['}', '}'] rest with
      | some tail => some ([a], tail)
      | none => (findCloseSub rest).map (fun gt => (a :: gt.1, gt.2))

/-- Match `\{\{(.+?)\}\}` at the head of `l`. -/
def tryMatchSubst (l : List Char) : Option (List Char × List Char) :=
  match expectL ['{', '{'] l with
  | none => none
  | some rest => findCloseSub rest

/-- A character that cannot interfere with either template pattern: not a
brace, not a backtick, not whitespace. -/
def plainChar (c : Char) : Bool :=
  !(c = '{') && !(c = '}') && !(c = btick) && !(isPySpace c)

/-- `replace_var`: the replacement for a matched `{{group}}` is
`str(variables.get(group.strip(), match.group(0)))`; the variable map is
modelled with string values, so `str` is the identity. -/
def substReplacement (vars : List (String × String)) (g : List Char) : List Char :=
  match lookupAC vars (String.mk (pyStripL g)) with
  | some v => v.data
  | none => '{' :: '{' :: (g ++ ['}', '}'])

/-- The scan of `re.sub(r"\{\{(.+?)\}\}", replace_var, unescaped)`. -/
def substScanF (vars : List (String × String)) : Nat → List Char → List Char
  | 0, l => l
  | _ + 1, [] => []
  | fuel + 1, c :: l =>
    match tryMatchSubst (c :: l) with
    | some gt => substReplacement vars gt.1 ++ substScanF vars fuel gt.2
    | none => c :: substScanF vars fuel l

/-- The substitution pass of `resolve_template_variables`. -/
def substitutePass (s : String) (vars : List (String × String)) : String :=
  String.mk (substScanF vars s.data.length s.data)

/-- The opening part of the unescape pattern:
`\{\{\s*` backtick `\{\{` backtick `\s*\}\}`. -/
def matchOpenEsc (l : List Char) : Option (List Char) :=
  match expectL ['{', '{'] l with
  | none => none
  | some l1 =>
    match expectL [btick, '{', '{', btick] (skipWsL l1) with
    | none => none
    | some l3 => expectL ['}', '}'] (skipWsL l3)

/-- The closing part of the unescape pattern:
`\{\{\s*` backtick `\}\}` backtick `\s*\}\}`. -/
def matchCloseEsc (l : List Char) : Option (List Char) :=
  match expectL ['{', '{'] l with
  | none => none
  | some l1 =>
    match expectL [btick, '}', '}', btick] (skipWsL l1) with
    | none => none
    | some l3 => expectL ['}', '}'] (skipWsL l3)

/-- Lazy group search between the opening and closing escape parts. -/
def findCloseEsc : List Char → Option (List Char × List Char)
  | [] => none
  | a :: rest =>
    if a = '\n' then none
    else
      match matchCloseEsc rest with
      | some tail => some ([a], tail)
      | none => (findCloseEsc rest).map (fun gt => (a :: gt.1, gt.2))

/-- Match the full unescape pattern at the head of `l`. -/
def tryMatchEsc (l : List Char) : Option (List Char × List Char) :=
  match matchOpenEsc l with
  | none => none
  | some rest => findCloseEsc rest

/-- The scan of the unescape `re.sub`; a match is rewritten to
`{{` group `}}` (the replacement template). -/
def escScanF : Nat → List Char → List Char
  | 0, l => l
  | _ + 1, [] => []
  | fuel + 1, c :: l =>
    match tryMatchEsc (c :: l) with
    | some gt => '{' :: '{' :: (gt.1 ++ '}' :: '}' :: escScanF fuel gt.2)
    | none => c :: escScanF fuel l

/-- The unescape pass of `resolve_template_variables`. -/
def unescapePass (s : String) : String :=
  String.mk (escScanF s.data.length s.data)

/-- `resolve_template_variables`: unescape the doubly-escaped brace idiom,
then substitute `{{identifier}}` occurrences from the variable map. -/
def resolve_template_variables (templateStr : String)
    (vars : List (String × String)) : String :=
  substitutePass (unescapePass templateStr) vars

/-! ### Template shapes

An arbitrary well-formed template is modelled as a list of segments:
brace-free literal text, plain variable tokens with whitespace-padded
identifiers, and doubly-escaped variable tokens.  `tmplRender` produces
the input string of such a shape and `tmplResolve` its expected
resolution; the C9 theorem relates them through
`resolve_template_variables`. -/

/-- A non-newline whitespace character (so it fits inside a `(.+?)` group
and is stripped by `str.strip`). -/
def wsChar (c : Char) : Bool :=
  isPySpace c && !(c = '\n')

/-- One segment of a template: literal text, a plain variable token
`{{ws1 name ws2}}`, or the doubly-escaped variable token with the same
inner characters. -/
inductive TmplSeg where
  | text : String → TmplSeg
  | plainVar : String → String → String → TmplSeg
  | escVar : String → String → String → TmplSeg

/-- The characters one segment renders to. -/
def segDataL : TmplSeg → List Char
  | .text s => s.data
  | .plainVar w1 nm w2 =>
      '{' :: '{' :: (w1.data ++ nm.data ++ w2.data ++ '}' :: '}' :: [])
  | .escVar w1 nm w2 =>
      '{' :: '{' :: btick :: '{' :: '{' :: btick :: '}' :: '}' ::
        (w1.data ++ nm.data ++ w2.data ++
          '{' :: '{' :: btick :: '}' :: '}' :: btick :: '}' :: '}' :: [])

/-- The characters a segment list renders to. -/
def tmplRenderL : List TmplSeg → List Char
  | [] => []
  | s :: rest => segDataL s ++ tmplRenderL rest

/-- The input string a template shape renders to. -/
def tmplRender (segs : List TmplSeg) : String :=
  String.mk (tmplRenderL segs)

/-- The effect of the unescape pass on one segment: an escaped token
becomes the plain token with the same inner characters (replacement
template `{{\1}}`); everything else is unchanged. -/
def segUnescaped : TmplSeg → TmplSeg
  | .text s => .text s
  | .plainVar w1 nm w2 => .plainVar w1 nm w2
  | .escVar w1 nm w2 => .plainVar w1 nm w2

/-- The resolved characters of one segment: text verbatim; a variable
token is looked up by its whitespace-stripped identifier and replaced by
the bound value, or left as the verbatim plain token when unbound. -/
def segResolveL (vars : List (String × String)) : TmplSeg → List Char
  | .text s => s.data
  | .plainVar w1 nm w2 =>
      (match lookupAC vars nm with
       | some v => v.data
       | none => '{' :: '{' :: (w1.data ++ nm.data ++ w2.data ++ '}' :: '}' :: []))
  | .escVar w1 nm w2 =>
      (match lookupAC vars nm with
       | some v => v.data
       | none => '{' :: '{' :: (w1.data ++ nm.data ++ w2.data ++ '}' :: '}' :: []))

/-- The resolved characters of a segment list. -/
def tmplResolveL (vars : List (String × String)) : List TmplSeg → List Char
  | [] => []
  | s :: rest => segResolveL vars s ++ tmplResolveL vars rest

/-- The expected output of `resolve_template_variables` on a shape. -/
def tmplResolve (segs : List TmplSeg) (vars : List (String × String)) : String :=
  String.mk (tmplResolveL vars segs)

/-- Well-formedness of a segment: literal text contains no opening brace
(so no match can begin inside it), and a token's identifier is a nonempty
run of plain characters padded by non-newline whitespace. -/
def SegWF : TmplSeg → Prop
  | .text s => ∀ c ∈ s.data, ¬(c = '{')
  | .plainVar w1 nm w2 =>
      (∀ c ∈ w1.data, wsChar c = true) ∧ (∀ c ∈ w2.data, wsChar c = true) ∧
        nm.data ≠ [] ∧ (∀ c ∈ nm.data, plainChar c = true)
  | .escVar w1 nm w2 =>
      (∀ c ∈ w1.data, wsChar c = true) ∧ (∀ c ∈ w2.data, wsChar c = true) ∧
        nm.data ≠ [] ∧ (∀ c ∈ nm.data, plainChar c = true)

/-- A segment that is not an escaped token (the shape after pass one). -/
def segNoEsc : TmplSeg → Prop
  | .escVar _ _ _ => False
  | _ => True

/-! ## Diff engine (`src/rita/commands/render.py`, `_diff_manifests`)

`yaml.safe_load` and Python `hash` are parameters; `difflib.unified_diff`
is a parameter `udiff baselineLines newLines fromLabel toLabel context`. -/

/-- The fields of a parsed manifest document that `_get_manifest_name`
reads (`metadata` is flattened into the two fields the code extracts). -/
structure YDoc where
  kind : Option String
  mdName : Option String
  mdNamespace : Option String
deriving DecidableEq

/-- Outcome of `yaml.safe_load(raw)`: a raised `yaml.YAMLError`, or a value
(`none` models a result that is falsy or not a dict, which the code
silently drops). -/
inductive YamlOutcome where
  | raised : YamlOutcome
  | value : Option YDoc → YamlOutcome

/-- `_get_manifest_name` (`src/rita/commands/render.py` lines 592–600). -/
def getManifestName (doc : YDoc) : String :=
  let kind := doc.kind.getD "Unknown"
  let name := doc.mdName.getD "unnamed"
  let ns := doc.mdNamespace.getD ""
  if ns ≠ "" then kind ++ "/" ++ ns ++ "/" ++ name
  else kind ++ "/" ++ name

/-- The `parse_docs` loop of `_diff_manifests`: strip each raw document,
skip empty ones, key parseable dicts by `_get_manifest_name` and raised
parses by `"unparseable-" + hash`, with Python-dict overwrite on duplicate
keys.  The stored value is the stripped raw text (the parsed dict stored
alongside it in the code is never read afterwards). -/
def parseDocsLoop (parseY : String → YamlOutcome) (hashF : String → Int)
    (acc : List (String × String)) : List String → List (String × String)
  | [] => acc
  | raw :: rest =>
    let rawS := pyStrip raw
    if rawS = "" then parseDocsLoop parseY hashF acc rest
    else
      match parseY rawS with
      | .raised =>
        parseDocsLoop parseY hashF
          (upsertAC acc ("unparseable-" ++ toString (hashF rawS)) rawS) rest
      | .value none => parseDocsLoop parseY hashF acc rest
      | .value (some d) =>
        parseDocsLoop parseY hashF (upsertAC acc (getManifestName d) rawS) rest

/-- `parse_docs(docs_raw)`. -/
def parseDocs (parseY : String → YamlOutcome) (hashF : String → Int)
    (docsRaw : List String) : List (String × String) :=
  parseDocsLoop parseY hashF [] docsRaw

/-- `f"... ({n} more lines)\n"`. -/
def moreLinesNote (n : Nat) : String :=
  "... (" ++ toString n ++ " more lines)\n"

/-- `f"... (truncated, showing first {maxLines} lines)\n"`. -/
def truncNote (maxLines : Nat) : String :=
  "... (truncated, showing first " ++ toString maxLines ++ " lines)\n"

/-- The `+++ NEW` block for an identity present only in the current
stream: header, up to `maxLines` `+`-prefixed (rstripped) lines, and a
`more lines` note when truncated. -/
def addedBlockLines (maxLines : Nat) (identity : String)
    (lines : List String) : List String :=
  ("+++ NEW: " ++ identity ++ "\n") ::
    ((lines.take maxLines).map (fun line => "+" ++ pyRstrip line ++ "\n") ++
      (if maxLines < lines.length then [moreLinesNote (lines.length - maxLines)] else []))

/-- The `--- REMOVED` block, symmetric to `addedBlockLines`. -/
def removedBlockLines (maxLines : Nat) (identity : String)
    (lines : List String) : List String :=
  ("--- REMOVED: " ++ identity ++ "\n") ::
    ((lines.take maxLines).map (fun line => "-" ++ pyRstrip line ++ "\n") ++
      (if maxLines < lines.length then [moreLinesNote (lines.length - maxLines)] else []))

/-- Abbreviation for the type of the `difflib.unified_diff` parameter. -/
abbrev UDiff := List String → List String → String → String → Nat → List String

/-- The body of the `for identity in sorted(all_identities)` loop, given
the two raw texts fetched for the identity (`""` when absent): `none` when
the loop emits no block (`continue`), `some` the joined block otherwise. -/
def blockFromRaws (udiff : UDiff) (maxLines : Nat)
    (braw nraw identity : String) : Option String :=
  if braw = nraw then none
  else
    let blines := if braw = "" then [] else pySplitLines braw
    let nlines := if nraw = "" then [] else pySplitLines nraw
    if braw = "" then some (String.join (addedBlockLines maxLines identity nlines))
    else if nraw = "" then some (String.join (removedBlockLines maxLines identity blines))
    else
      let d := udiff blines nlines ("baseline/" ++ identity) ("current/" ++ identity) 150
      if d.isEmpty then none
      else
        some (String.join
          (if maxLines < d.length then d.take maxLines ++ [truncNote maxLines] else d))

/-- The per-identity body of the loop over the two identity-to-raw-text
maps: fetch with `dict.get(identity, ("", {}))[0]`, then compare. -/
def blockFor (udiff : UDiff) (maxLines : Nat)
    (bMap nMap : List (String × String)) (identity : String) : Option String :=
  blockFromRaws udiff maxLines
    ((lookupAC bMap identity).getD "") ((lookupAC nMap identity).getD "") identity

/-- Lexicographic (code-point) comparison of character lists: Python's
string `<=`. -/
def charListLeb : List Char → List Char → Bool
  | [], _ => true
  | _ :: _, [] => false
  | c :: l, d :: m => if c = d then charListLeb l m else decide (c < d)

/-- Python string `<=` (lexicographic by code point). -/
def strLeb (a b : String) : Bool :=
  charListLeb a.data b.data

/-- `sorted(...)` over identity strings, in Python's code-point order. -/
def sortStr (l : List String) : List String :=
  l.insertionSort (fun a b => strLeb a b = true)

/-- `set(baseline_docs.keys()) | set(new_docs.keys())` as a duplicate-free
list of keys (iteration order is irrelevant: the loop sorts it). -/
def allIdentities (bMap nMap : List (String × String)) : List String :=
  ((bMap.map Prod.fst) ++ (nMap.map Prod.fst)).dedup

/-- `_diff_manifests(baseline_content, new_content, max_lines_per_manifest)`
(`src/rita/commands/render.py` lines 603–692). -/
def diff_manifests (parseY : String → YamlOutcome) (hashF : String → Int)
    (udiff : UDiff) (maxLines : Nat) (baselineContent newContent : String) :
    Bool × String :=
  let baselineDocsRaw := pySplit baselineContent "\n---\n"
  let newDocsRaw := pySplit newContent "\n---\n"
  let bMap := parseDocs parseY hashF baselineDocsRaw
  let nMap := parseDocs parseY hashF newDocsRaw
  let diffs := (sortStr (allIdentities bMap nMap)).filterMap
    (blockFor udiff maxLines bMap nMap)
  if diffs.isEmpty then (false, "")
  else (true, String.intercalate "\n" diffs)

/-! ### C7: source classification -/

/-- First-some choice on options (`x` if it is `some`, else `y`). -/
def orO {α : Type} (x y : Option α) : Option α :=
  match x with
  | some q => some q
  | none => y

/-- The Kustomize-classified path of one source entry, when the entry is
eligible (`path` key, truthy path, no truthy `ref`) and the directory probe
says Kustomize. -/
def kustomizePathOf (isK : String → Bool) (s : SourceDoc) : Option String :=
  match s.path with
  | some p => if (s.ref.getD "") = "" && !(p = "") && isK p then some p else none
  | none => none

/-- The plain-manifests-classified path of one source entry. -/
def plainPathOf (isK : String → Bool) (s : SourceDoc) : Option String :=
  match s.path with
  | some p => if (s.ref.getD "") = "" && !(p = "") && !(isK p) then some p else none
  | none => none

/-! ### C4: ApplicationSet expansion -/

/-- The child descriptor the specification promises for one raw
list-generator element (spec §4.4 / claim C4): `chartName = origin`,
`ociChartName = "helm-charts/" + origin`,
`valuesFiles = ["kubernetes/" + origin + "/" + valuesFile]` when a values
file is declared (empty otherwise), namespace from the ApplicationSet
destination, release name from the element name, and the ApplicationSet's
values overlay.  This is the spec-side description to be compared with the
code path `parse_applicationset` + `to_app_configs`. -/
def specChildDescriptor (appset : ArgoAppSetConfig)
    (chartExists : String → Bool) (elem : RawElem) : ArgoAppConfig :=
  let origin := pyGet elem "origin" ""
  { name := pyGet elem "name" ""
    chartRepo := appset.chartRepo
    chartName := origin
    chartVersion := pyGet elem "version" ""
    valuesFiles :=
      if pyGet elem "valuesFile" "" = "" then []
      else ["kubernetes/" ++ origin ++ "/" ++ pyGet elem "valuesFile" ""]
    ns := appset.destinationNamespace
    releaseName := pyGet elem "name" ""
    isLocalChart := chartExists origin
    ociChartName := "helm-charts/" ++ origin
    valuesObject := appset.valuesOverlay
    isKustomize := false
    kustomizePath := none
    plainManifestsPath := none }

/-! ### C1, C2: worker-pool error aggregation -/

/-- The exception the worker-pool handler would re-raise for one child
result, if any (`none` for a returned result or a captured exception). -/
def poolAbort (r : Except PyExc (Bool × String × List String)) : Option PyExc :=
  match r with
  | .ok _ => none
  | .error e => poolReRaise e

/-- The per-child results of one recursion level, in submission order:
what `_render_child_app` produces for each child (name plus the recursive
outcome at the reduced depth budget). -/
def childResults (maxDepth fuel : Nat) (children : List AppTree) :
    List (String × Except PyExc (Bool × String × List String)) :=
  children.map (fun c => (c.name, renderRecAux maxDepth true fuel c))

/-! ### C10: duplicate identities in one stream -/

/-- The identity/raw pair one raw document contributes to the map of
`parse_docs`, if any (`none` for documents that strip to empty or parse to
a falsy/non-dict value). -/
def docKey (parseY : String → YamlOutcome) (hashF : String → Int)
    (raw : String) : Option (String × String) :=
  let rawS := pyStrip raw
  if rawS = "" then none
  else
    match parseY rawS with
    | .raised => some ("unparseable-" ++ toString (hashF rawS), rawS)
    | .value none => none
    | .value (some d) => some (getManifestName d, rawS)

/-- The stripped raw text of the **last** document of `docsRaw` keyed
under identity `k` by the diff engine. -/
def lastRawFor (parseY : String → YamlOutcome) (hashF : String → Int)
    (docsRaw : List String) (k : String) : Option String :=
  ((docsRaw.filterMap (docKey parseY hashF)).filterMap
    (fun kv => if kv.1 = k then some kv.2 else none)).getLast?

/-- What one per-identity loop iteration of `_diff_manifests` must emit,
given the raw texts fetched for the identity on both sides:
byte-identical raws produce no block; an identity present only in current
produces the `+++ NEW` block listing at most 250 (rstripped, `+`-prefixed)
document lines with a `more lines` note exactly when truncated; symmetric
for `--- REMOVED`; and an identity present in both with differing raws
produces the 150-context unified diff of the two line lists, truncated to
250 lines plus a truncation note, and preceded by its identity through the
`baseline/<identity>` header label. -/
def BlockSpec (udiff : UDiff) (braw nraw id : String) : Prop :=
  (braw = nraw → blockFromRaws udiff 250 braw nraw id = none) ∧
  (braw = "" → nraw ≠ "" →
    blockFromRaws udiff 250 braw nraw id =
      some (String.join (addedBlockLines 250 id (pySplitLines nraw))) ∧
    ∃ listed note,
      addedBlockLines 250 id (pySplitLines nraw) =
        ("+++ NEW: " ++ id ++ "\n") :: (listed ++ note) ∧
      listed = ((pySplitLines nraw).take 250).map
        (fun line => "+" ++ pyRstrip line ++ "\n") ∧
      listed.length ≤ 250 ∧
      (note = [] ↔ (pySplitLines nraw).length ≤ 250)) ∧
  (nraw = "" → braw ≠ "" →
    blockFromRaws udiff 250 braw nraw id =
      some (String.join (removedBlockLines 250 id (pySplitLines braw))) ∧
    ∃ listed note,
      removedBlockLines 250 id (pySplitLines braw) =
        ("--- REMOVED: " ++ id ++ "\n") :: (listed ++ note) ∧
      listed = ((pySplitLines braw).take 250).map
        (fun line => "-" ++ pyRstrip line ++ "\n") ∧
      listed.length ≤ 250 ∧
      (note = [] ↔ (pySplitLines braw).length ≤ 250)) ∧
  (braw ≠ "" → nraw ≠ "" → braw ≠ nraw →
    ∀ d, d = udiff (pySplitLines braw) (pySplitLines nraw)
        ("baseline/" ++ id) ("current/" ++ id) 150 →
      (d = [] → blockFromRaws udiff 250 braw nraw id = none) ∧
      (d ≠ [] →
        blockFromRaws udiff 250 braw nraw id =
          some (String.join
            (if 250 < d.length then d.take 250 ++ [truncNote 250] else d)) ∧
        (if 250 < d.length then d.take 250 ++ [truncNote 250] else d).length ≤ 251))

/-- The shape of the full diff output (claim C6), packaged over the two
input streams: the per-identity maps, the identity list in strictly
ascending Python string order, the block list produced in that order, the
returned pair, the per-identity block shapes, and the identity-header of
changed blocks. -/
def DiffOutputSpec (parseY : String → YamlOutcome) (hashF : String → Int)
    (udiff : UDiff) (x y : String) : Prop :=
  ∃ bMap nMap ids blocks,
    bMap = parseDocs parseY hashF (pySplit x "\n---\n") ∧
    nMap = parseDocs parseY hashF (pySplit y "\n---\n") ∧
    ids = sortStr (allIdentities bMap nMap) ∧
    blocks = ids.filterMap (blockFor udiff 250 bMap nMap) ∧
    diff_manifests parseY hashF udiff 250 x y =
      (!blocks.isEmpty, String.intercalate "\n" blocks) ∧
    List.Pairwise (fun a b => strLeb a b = true ∧ a ≠ b) ids ∧
    (∀ id, blockFor udiff 250 bMap nMap id =
      blockFromRaws udiff 250 ((lookupAC bMap id).getD "")
        ((lookupAC nMap id).getD "") id) ∧
    (∀ id ∈ ids,
      BlockSpec udiff ((lookupAC bMap id).getD "") ((lookupAC nMap id).getD "") id) ∧
    (∀ id ∈ ids, ∀ braw nraw,
      braw = (lookupAC bMap id).getD "" → nraw = (lookupAC nMap id).getD "" →
      braw ≠ "" → nraw ≠ "" → braw ≠ nraw →
      (∀ a b f t n, udiff a b f t n ≠ [] → ∃ rest,
        udiff a b f t n = ("--- " ++ f ++ "\n") :: rest) →
      udiff (pySplitLines braw) (pySplitLines nraw)
          ("baseline/" ++ id) ("current/" ++ id) 150 ≠ [] →
      ∃ rest, (if 250 < (udiff (pySplitLines braw) (pySplitLines nraw)
          ("baseline/" ++ id) ("current/" ++ id) 150).length
        then (udiff (pySplitLines braw) (pySplitLines nraw)
          ("baseline/" ++ id) ("current/" ++ id) 150).take 250 ++ [truncNote 250]
        else udiff (pySplitLines braw) (pySplitLines nraw)
          ("baseline/" ++ id) ("current/" ++ id) 150) =
        ("--- " ++ ("baseline/" ++ id) ++ "\n") :: rest)

/-! ## Theorems -/

/-! ## Claims -/

/-- C3. For every call to `render_recursive` with
`current_depth >= max_depth`, expansion stops without rendering anything:
success, the `max recursion depth reached` message, and an empty list of
additional rendered resources — never a failure. -/
theorem c3_depth_bound_stops_with_success (app : AppTree)
    (maxDepth currentDepth : Nat) (parallel : Bool)
    (h : maxDepth ≤ currentDepth) :
    render_recursive app maxDepth currentDepth parallel =
      .ok (true, "Max recursion depth (" ++ toString maxDepth ++ ") reached", []) := by
  simp only [render_recursive, if_pos h, maxDepthMsg]
  rfl

/-- Witness for C3 at `max_depth = 5 = current_depth` (the default bound)
on a concrete application. -/
theorem c3_depth_bound_stops_with_success_witness :
    5 ≤ 5 ∧
      render_recursive (.node "root" (.ok (true, "rendered")) []) 5 5 true =
        .ok (true, "Max recursion depth (" ++ toString 5 ++ ") reached", []) :=
  ⟨le_refl 5,
   c3_depth_bound_stops_with_success (.node "root" (.ok (true, "rendered")) []) 5 5 true (le_refl 5)⟩

/-- The loop body of `_diff_manifests` emits no block when both maps hold
the same raw text for the identity (in particular when both maps are the
same map). -/
theorem blockFor_self (udiff : UDiff) (maxLines : Nat)
    (m : List (String × String)) (identity : String) :
    blockFor udiff maxLines m m identity = none := by
  simp [blockFor, blockFromRaws]

/-- C5. Diffing a manifest stream against a byte-identical copy of itself
yields `hasDiff = false` and empty diff text: both sides produce the same
identity-to-raw-text map, so every identity in the union compares equal
and is skipped. -/
theorem c5_diff_self_is_empty (parseY : String → YamlOutcome)
    (hashF : String → Int) (udiff : UDiff) (maxLines : Nat) (x : String) :
    diff_manifests parseY hashF udiff maxLines x x = (false, "") := by
  simp only [diff_manifests]
  rw [List.filterMap_eq_nil_iff.mpr]
  · simp
  · intro a _
    exact blockFor_self udiff maxLines _ a

/-! ### C8: values-file extraction -/

/-- A list always starts with itself followed by anything. -/
theorem startsWithL_append_self (p l : List Char) :
    startsWithL (p ++ l) p = true := by
  induction p with
  | nil => cases l <;> rfl
  | cons c p ih => simp [startsWithL, ih]

/-- Dropping a pattern from `pat ++ l` leaves `l`. -/
theorem dropPatL_append_self (p l : List Char) :
    dropPatL (p ++ l) p = l := by
  induction p with
  | nil => simp [dropPatL]
  | cons c p ih => simpa [dropPatL] using ih

/-- `pyReplaceF` leaves a list without any occurrence of the pattern
unchanged (for any sufficient fuel). -/
theorem pyReplaceF_of_not_contains (pat repl : List Char) :
    ∀ (fuel : Nat) (l : List Char), l.length ≤ fuel →
      containsSubL l pat = false → pyReplaceF pat repl fuel l = l := by
  intro fuel
  induction fuel with
  | zero => intro l _ _; rfl
  | succ fuel ih =>
    intro l hlen hocc
    cases l with
    | nil => rfl
    | cons c l =>
      simp only [containsSubL, Bool.or_eq_false_iff] at hocc
      simp only [pyReplaceF, hocc.1, if_neg]
      simp only [List.length_cons, Nat.succ_le_succ_iff] at hlen
      rw [ih l hlen hocc.2]
      simp

/-- C8 counterexample. The claim predicts that values extraction strips
only the *leading* `$values/` alias and keeps the remainder verbatim; on
`["$values/a/$values/b"]` the code removes **both** occurrences, yielding
`["a/b"]` instead of the predicted `["a/$values/b"]`. -/
theorem c8_counterexample :
    extractValuesFiles ⟨["$values/a/$values/b"], none, none⟩ = ["a/b"] ∧
      (["a/b"] : List String) ≠ ["a/$values/b"] := by
  constructor
  · decide
  · decide

/-- `pyReplaceF` on a list starting with the (nonempty) pattern replaces
that occurrence and continues after it. -/
theorem pyReplaceF_start (pat repl l : List Char) (fuel : Nat)
    (hp : pat ≠ []) :
    pyReplaceF pat repl (fuel + 1) (pat ++ l) =
      repl ++ pyReplaceF pat repl fuel l := by
  cases pat with
  | nil => exact absurd rfl hp
  | cons c p =>
    have heq :
        pyReplaceF (c :: p) repl (fuel + 1) ((c :: p) ++ l) =
          if startsWithL ((c :: p) ++ l) (c :: p) then
            repl ++ pyReplaceF (c :: p) repl fuel (dropPatL ((c :: p) ++ l) (c :: p))
          else
            c :: pyReplaceF (c :: p) repl fuel (p ++ l) := rfl
    rw [heq, startsWithL_append_self, dropPatL_append_self]
    simp

/-- C8 amended. Values extraction maps each entry independently,
preserving order and length: entries not starting with `$values/` are
returned verbatim, and entries starting with `$values/` have **every**
non-overlapping occurrence of `"$values/"` removed by Python `str.replace`
(not only the leading alias).  When the remainder after the leading alias
contains no further `"$values/"`, this agrees with stripping the leading
alias only. -/
theorem c8_amended_values_extraction (hc : HelmDoc) :
    extractValuesFiles hc =
      hc.valueFiles.map
        (fun vf => if pyStartsWith vf "$values/" then pyReplace vf "$values/" "" else vf) ∧
    (extractValuesFiles hc).length = hc.valueFiles.length ∧
    (∀ r : String, containsSubL r.data "$values/".data = false →
      pyReplace ("$values/" ++ r) "$values/" "" = r) := by
  refine ⟨rfl, by simp [extractValuesFiles], ?_⟩
  intro r hocc
  have hdata : ("$values/" ++ r).data = "$values/".data ++ r.data :=
    String.data_append "$values/" r
  have hlen : ("$values/" ++ r).data.length = (7 + r.data.length) + 1 := by
    rw [hdata, List.length_append]
    have h8 : ("$values/".data).length = 8 := rfl
    omega
  unfold pyReplace
  rw [hlen, hdata]
  rw [pyReplaceF_start "$values/".data "".data r.data (7 + r.data.length) (by decide)]
  rw [pyReplaceF_of_not_contains "$values/".data "".data (7 + r.data.length) r.data
    (by omega) hocc]
  rfl

/-- Witness for C8 amended, instantiating the alias-stripping conjunct on
a single-occurrence values path. -/
theorem c8_amended_values_extraction_witness :
    containsSubL "a/b".data "$values/".data = false ∧
      pyReplace ("$values/" ++ "a/b") "$values/" "" = "a/b" :=
  ⟨by decide,
   (c8_amended_values_extraction ⟨[], none, none⟩).2.2 "a/b" (by decide)⟩

/-- `orO` with a `none` right argument is the identity. -/
theorem orO_none_right {α : Type} (x : Option α) : orO x none = x := by
  cases x <;> rfl

/-- Pushing a new head element into a last-wins choice. -/
theorem orO_getLast_cons {α : Type} (q : α) (fm : List α) (k : Option α) :
    orO ((q :: fm).getLast?) k = orO fm.getLast? (some q) := by
  cases fm with
  | nil => rfl
  | cons b m =>
    rw [List.getLast?_cons_cons]
    have hne : (b :: m) ≠ [] := by simp
    have hs : ((b :: m).getLast?).isSome := List.getLast?_isSome.mpr hne
    obtain ⟨x, hx⟩ := Option.isSome_iff_exists.mp hs
    rw [hx]
    rfl

/-- One step of the classification loop, expressed through the two
per-entry classifiers: an eligible path overwrites the running Kustomize or
plain state, anything else keeps it. -/
theorem classifyStep_eq (isK : String → Bool) (s : SourceDoc) (k p : Option String) :
    (if s.path.isSome && (s.ref.getD "") = "" then
       match s.path with
       | some path =>
         if path = "" then (k, p)
         else if isK path then (some path, p) else (k, some path)
       | none => (k, p)
     else (k, p)) =
    (orO (kustomizePathOf isK s) k, orO (plainPathOf isK s) p) := by
  cases hp : s.path with
  | none => simp [kustomizePathOf, plainPathOf, hp, orO]
  | some path =>
    by_cases h1 : (s.ref.getD "") = ""
    · by_cases h2 : path = ""
      · simp [kustomizePathOf, plainPathOf, hp, h1, h2, orO]
      · cases h3 : isK path <;>
          simp [kustomizePathOf, plainPathOf, hp, h1, h2, h3, orO]
    · simp [kustomizePathOf, plainPathOf, hp, h1, orO]

/-- Unfolding one step of `classifySources` through `classifyStep_eq`. -/
theorem classifySources_cons (isK : String → Bool) (s : SourceDoc)
    (rest : List SourceDoc) (h : Option SourceDoc) (k p : Option String) :
    classifySources isK (s :: rest) h k p =
      classifySources isK rest
        (if s.chartKey.isSome && h.isNone then some s else h)
        (orO (kustomizePathOf isK s) k)
        (orO (plainPathOf isK s) p) := by
  have hstep := classifyStep_eq isK s k p
  simp only [classifySources]
  rw [hstep]

/-- `classifySources` over an appended list threads its state. -/
theorem classifySources_append (isK : String → Bool) :
    ∀ (l₁ l₂ : List SourceDoc) (h : Option SourceDoc) (k p : Option String),
      classifySources isK (l₁ ++ l₂) h k p =
        classifySources isK l₂
          (classifySources isK l₁ h k p).1
          (classifySources isK l₁ h k p).2.1
          (classifySources isK l₁ h k p).2.2 := by
  intro l₁
  induction l₁ with
  | nil => intro l₂ h k p; simp [classifySources]
  | cons s rest ih =>
    intro l₂ h k p
    rw [List.cons_append, classifySources_cons, classifySources_cons, ih]

/-- When no entry of `l` classifies as Kustomize, the running Kustomize
path is preserved. -/
theorem classify_k_preserved (isK : String → Bool) :
    ∀ (l : List SourceDoc) (h : Option SourceDoc) (k p : Option String),
      (∀ t ∈ l, kustomizePathOf isK t = none) →
      (classifySources isK l h k p).2.1 = k := by
  intro l
  induction l with
  | nil => intro h k p _; rfl
  | cons s rest ih =>
    intro h k p hnone
    rw [classifySources_cons, hnone s (by simp)]
    exact ih _ _ _ (fun t ht => hnone t (by simp [ht]))

/-- When no entry of `l` classifies as plain manifests, the running
plain-manifests path is preserved. -/
theorem classify_p_preserved (isK : String → Bool) :
    ∀ (l : List SourceDoc) (h : Option SourceDoc) (k p : Option String),
      (∀ t ∈ l, plainPathOf isK t = none) →
      (classifySources isK l h k p).2.2 = p := by
  intro l
  induction l with
  | nil => intro h k p _; rfl
  | cons s rest ih =>
    intro h k p hnone
    rw [classifySources_cons, hnone s (by simp)]
    exact ih _ _ _ (fun t ht => hnone t (by simp [ht]))

/-- The Helm component of the loop: the initial Helm source if set, else
the first `chart`-bearing entry. -/
theorem classify_h_first (isK : String → Bool) :
    ∀ (l : List SourceDoc) (h : Option SourceDoc) (k p : Option String),
      (classifySources isK l h k p).1 =
        orO h (l.find? (fun t => t.chartKey.isSome)) := by
  intro l
  induction l with
  | nil => intro h k p; simp [classifySources, orO_none_right]
  | cons s rest ih =>
    intro h k p
    rw [classifySources_cons, ih]
    cases h with
    | some x => simp [orO]
    | none =>
      cases hck : s.chartKey.isSome <;> simp [orO, List.find?_cons, hck]

/-- C7 counterexample. The claim predicts that the *first* matching entry
of each kind is honored; on an Application whose sources are two Kustomize
paths `p1`, `p2` (both classified Kustomize by the directory probe, and
`p1` being the first matching entry), parsing honors `p2`, the **last**
one. -/
theorem c7_counterexample :
    (parse_argocd_application
        ⟨some ⟨some "app", none⟩,
         some ⟨some ⟨none, some "ns"⟩, none,
           [⟨none, none, some "p1", none, none, none⟩,
            ⟨none, none, some "p2", none, none, none⟩]⟩⟩
        (fun _ => true) (fun _ => false)).map (fun c => c.kustomizePath) =
      some (some "p2") ∧
    ((normalizeSources ⟨some ⟨none, some "ns"⟩, none,
        [⟨none, none, some "p1", none, none, none⟩,
         ⟨none, none, some "p2", none, none, none⟩]⟩).find?
      (fun s => s.path.isSome)).bind (fun s => s.path) = some "p1" ∧
    ("p2" : String) ≠ "p1" := by
  refine ⟨rfl, rfl, by decide⟩

/-- C7 amended. Per Application at most one Helm source, one Kustomize
path and one plain-manifests path are honored; the Helm source is the
**first** `chart`-bearing entry, but the Kustomize and plain-manifests
paths are the **last** matching entries of their kind — a later matching
entry overwrites an earlier one. -/
theorem c7_amended_first_helm_last_paths (isK : String → Bool)
    (srcs l₁ l₂ : List SourceDoc) (s : SourceDoc) (q : String) :
    ((classifySources isK srcs none none none).1 =
        srcs.find? (fun t => t.chartKey.isSome)) ∧
    (kustomizePathOf isK s = some q →
      (∀ t ∈ l₂, kustomizePathOf isK t = none) →
      (classifySources isK (l₁ ++ s :: l₂) none none none).2.1 = some q) ∧
    (plainPathOf isK s = some q →
      (∀ t ∈ l₂, plainPathOf isK t = none) →
      (classifySources isK (l₁ ++ s :: l₂) none none none).2.2 = some q) := by
  refine ⟨by rw [classify_h_first]; rfl, ?_, ?_⟩
  · intro hs hl₂
    rw [classifySources_append, classifySources_cons, hs]
    calc (classifySources isK l₂ _ (orO (some q) _) _).2.1
        = orO (some q) (classifySources isK l₁ none none none).2.1 :=
          classify_k_preserved isK l₂ _ _ _ hl₂
      _ = some q := rfl
  · intro hs hl₂
    rw [classifySources_append, classifySources_cons, hs]
    calc (classifySources isK l₂ _ _ (orO (some q) _)).2.2
        = orO (some q) (classifySources isK l₁ none none none).2.2 :=
          classify_p_preserved isK l₂ _ _ _ hl₂
      _ = some q := rfl

/-- Witness for C7 amended: with two Kustomize-classified paths the last
one is honored. -/
theorem c7_amended_first_helm_last_paths_witness :
    kustomizePathOf (fun _ => true) ⟨none, none, some "p2", none, none, none⟩ = some "p2" ∧
    (classifySources (fun _ => true)
        [⟨none, none, some "p1", none, none, none⟩,
         ⟨none, none, some "p2", none, none, none⟩] none none none).2.1 = some "p2" := by
  refine ⟨rfl, ?_⟩
  have h := (c7_amended_first_helm_last_paths (fun _ => true)
    [] [⟨none, none, some "p1", none, none, none⟩] []
    ⟨none, none, some "p2", none, none, none⟩ "p2").2.1
  exact h rfl (fun t ht => absurd ht (by simp))

/-- C4. Expanding an ApplicationSet document yields exactly one
`ArgoAppConfig` per list-generator element, each exactly the descriptor the
specification promises: `chartName = origin`,
`ociChartName = "helm-charts/" + origin`, values file under
`kubernetes/<origin>/` when declared, destination namespace, element
release name, and the inherited values overlay. -/
theorem c4_appset_expansion_matches_spec (doc : AppSetDoc)
    (chartExists : String → Bool) :
    to_app_configs (parse_applicationset doc) chartExists =
      (rawGenElements (doc.spec.getD ⟨[], none⟩).generators).map
        (specChildDescriptor (parse_applicationset doc) chartExists) ∧
    (to_app_configs (parse_applicationset doc) chartExists).length =
      (rawGenElements (doc.spec.getD ⟨[], none⟩).generators).length := by
  have hmap :
      to_app_configs (parse_applicationset doc) chartExists =
        (rawGenElements (doc.spec.getD ⟨[], none⟩).generators).map
          (specChildDescriptor (parse_applicationset doc) chartExists) := by
    show ((rawGenElements (doc.spec.getD ⟨[], none⟩).generators).map
        (mkGenElem ((doc.metadata.getD ⟨none, none⟩).ns.getD "argocd"))).map _ = _
    rw [List.map_map]
    refine List.map_congr_left ?_
    intro elem _
    simp only [Function.comp, to_app_configs, specChildDescriptor, mkGenElem]
    have horigin :
        (lookupAC elem "origin").getD (pyGet elem "origin" "") =
          pyGet elem "origin" "" := by
      cases h : lookupAC elem "origin" <;> simp [pyGet, h]
    simp [horigin]
  exact ⟨hmap, by rw [hmap, List.length_map]⟩

/-- A re-raised pool exception is always the `AWSTokenExpiredError` (the
exception itself, or its `__cause__`). -/
theorem poolAbort_isAWS (r : Except PyExc (Bool × String × List String))
    (a : PyExc) (h : poolAbort r = some a) : isAWSExpired a = true := by
  cases r with
  | ok v => exact absurd h (by simp [poolAbort])
  | error e =>
    cases e with
    | awsTokenExpired profile =>
      simp only [poolAbort, poolReRaise, isAWSExpired, if_pos] at h
      cases h
      rfl
    | other m c =>
      cases c with
      | none => simp [poolAbort, poolReRaise, isAWSExpired, excCause] at h
      | some c2 =>
        simp only [poolAbort, poolReRaise, excCause,
          show isAWSExpired (PyExc.other m (some c2)) = false from rfl,
          Bool.false_eq_true, if_false] at h
        by_cases hw : isAWSExpired c2 = true
        · rw [if_pos hw] at h
          cases h
          exact hw
        · rw [if_neg hw] at h
          cases h

/-- The gathering loop re-raises the first auth-expiry found among the
child results (in completion order). -/
theorem poolGather_abort :
    ∀ (rs : List (String × Except PyExc (Bool × String × List String)))
      (a : PyExc),
      rs.findSome? (fun pr => poolAbort pr.2) = some a →
      poolGather rs = .error a := by
  intro rs
  induction rs with
  | nil => intro a h; exact absurd h (by simp)
  | cons pr rest ih =>
    intro a h
    obtain ⟨n, r⟩ := pr
    rw [List.findSome?_cons] at h
    cases r with
    | ok v =>
      obtain ⟨cs, cm, g⟩ := v
      simp only [poolAbort] at h
      rw [show poolGather ((n, Except.ok (cs, cm, g)) :: rest) =
        (match poolGather rest with
         | .error e => .error e
         | .ok (rendered, errs) =>
           if cs then .ok (g ++ rendered, errs)
           else .ok (rendered, (n ++ ": " ++ cm) :: errs)) from rfl]
      rw [ih a h]
    | error e =>
      simp only [poolAbort] at h
      rw [show poolGather ((n, Except.error e) :: rest) =
        (match poolReRaise e with
         | some e2 => .error e2
         | none =>
           match poolGather rest with
           | .error e2 => .error e2
           | .ok (rendered, errs) =>
             .ok (rendered, (n ++ ": " ++ excMsg e) :: errs)) from rfl]
      cases hre : poolReRaise e with
      | some e2 =>
        rw [hre] at h
        cases h
        rfl
      | none =>
        rw [hre] at h
        simp only [Option.none_orElse] at h
        rw [ih a h]

/-- When no child result re-raises, the gathering loop returns: every
failed child contributes its `name: message` entry, every captured
exception contributes its `name: str(e)` entry, and every successful
child's rendered names are all reported. -/
theorem poolGather_ok_of_no_abort :
    ∀ (rs : List (String × Except PyExc (Bool × String × List String))),
      (∀ pr ∈ rs, poolAbort pr.2 = none) →
      ∃ re errs, poolGather rs = .ok (re, errs) ∧
        (∀ pr ∈ rs, ∀ m g, pr.2 = .ok (false, m, g) →
          (pr.1 ++ ": " ++ m) ∈ errs) ∧
        (∀ pr ∈ rs, ∀ e, pr.2 = .error e →
          (pr.1 ++ ": " ++ excMsg e) ∈ errs) ∧
        (∀ pr ∈ rs, ∀ m g, pr.2 = .ok (true, m, g) → ∀ x ∈ g, x ∈ re) := by
  intro rs
  induction rs with
  | nil => exact fun _ => ⟨[], [], rfl, by simp, by simp, by simp⟩
  | cons pr rest ih =>
    intro hno
    obtain ⟨re, errs, heq, hf, he, hs⟩ :=
      ih (fun q hq => hno q (List.mem_cons_of_mem _ hq))
    obtain ⟨n, r⟩ := pr
    cases r with
    | ok v =>
      obtain ⟨cs, cm, g⟩ := v
      cases cs with
      | true =>
        refine ⟨g ++ re, errs, ?_, ?_, ?_, ?_⟩
        · rw [show poolGather ((n, Except.ok (true, cm, g)) :: rest) =
            (match poolGather rest with
             | .error e => .error e
             | .ok (rendered, errs2) => .ok (g ++ rendered, errs2)) from rfl]
          rw [heq]
        · intro q hq m g2 hq2
          rcases List.mem_cons.mp hq with rfl | hq
          · exact absurd hq2 (by simp)
          · exact hf q hq m g2 hq2
        · intro q hq e hq2
          rcases List.mem_cons.mp hq with rfl | hq
          · exact absurd hq2 (by simp)
          · exact he q hq e hq2
        · intro q hq m g2 hq2 x hx
          rcases List.mem_cons.mp hq with rfl | hq
          · simp only at hq2
            injection hq2 with hv
            injection hv with h1 h23
            injection h23 with h2 h3
            subst h3
            exact List.mem_append.mpr (Or.inl hx)
          · exact List.mem_append.mpr (Or.inr (hs q hq m g2 hq2 x hx))
      | false =>
        refine ⟨re, (n ++ ": " ++ cm) :: errs, ?_, ?_, ?_, ?_⟩
        · rw [show poolGather ((n, Except.ok (false, cm, g)) :: rest) =
            (match poolGather rest with
             | .error e => .error e
             | .ok (rendered, errs2) =>
               .ok (rendered, (n ++ ": " ++ cm) :: errs2)) from rfl]
          rw [heq]
        · intro q hq m g2 hq2
          rcases List.mem_cons.mp hq with rfl | hq
          · simp only at hq2
            injection hq2 with hv
            injection hv with h1 h23
            injection h23 with h2 h3
            subst h2
            exact List.mem_cons_self _ _
          · exact List.mem_cons_of_mem _ (hf q hq m g2 hq2)
        · intro q hq e hq2
          rcases List.mem_cons.mp hq with rfl | hq
          · exact absurd hq2 (by simp)
          · exact List.mem_cons_of_mem _ (he q hq e hq2)
        · intro q hq m g2 hq2 x hx
          rcases List.mem_cons.mp hq with rfl | hq
          · exact absurd hq2 (by simp)
          · exact hs q hq m g2 hq2 x hx
    | error e =>
      have hre : poolReRaise e = none := by
        have := hno (n, .error e) (List.mem_cons_self _ _)
        simpa [poolAbort] using this
      refine ⟨re, (n ++ ": " ++ excMsg e) :: errs, ?_, ?_, ?_, ?_⟩
      · rw [show poolGather ((n, Except.error e) :: rest) =
          (match poolReRaise e with
           | some e2 => .error e2
           | none =>
             match poolGather rest with
             | .error e2 => .error e2
             | .ok (rendered, errs2) =>
               .ok (rendered, (n ++ ": " ++ excMsg e) :: errs2)) from rfl]
        rw [hre, heq]
      · intro q hq m g2 hq2
        rcases List.mem_cons.mp hq with rfl | hq
        · exact absurd hq2 (by simp)
        · exact List.mem_cons_of_mem _ (hf q hq m g2 hq2)
      · intro q hq e2 hq2
        rcases List.mem_cons.mp hq with rfl | hq
        · simp only at hq2
          injection hq2 with hv
          rw [← hv]
          exact List.mem_cons_self _ _
        · exact List.mem_cons_of_mem _ (he q hq e2 hq2)
      · intro q hq m g2 hq2 x hx
        rcases List.mem_cons.mp hq with rfl | hq
        · exact absurd hq2 (by simp)
        · exact hs q hq m g2 hq2 x hx

/-- Unfolds `render_recursive` below the depth bound. -/
theorem render_recursive_eq_aux (app : AppTree)
    (maxDepth currentDepth : Nat) (parallel : Bool)
    (hd : currentDepth < maxDepth) :
    render_recursive app maxDepth currentDepth parallel =
      renderRecAux maxDepth parallel (maxDepth - currentDepth) app := by
  simp [render_recursive, Nat.not_le.mpr hd]

/-- Unfolds one level of `renderRecAux` on a successfully rendered node
with at least two children: the worker-pool branch gathers the child
results. -/
theorem renderRecAux_node_pool (maxDepth fuel : Nat) (name msg : String)
    (children : List AppTree) (hlen : 1 < children.length) :
    renderRecAux maxDepth true (fuel + 1) (.node name (.ok (true, msg)) children) =
      match poolGather (childResults maxDepth fuel children) with
      | .error e => .error e
      | .ok (renderedExtra, errs) =>
        .ok (true, levelMsg renderedExtra errs, name :: renderedExtra) := by
  have hne : children.isEmpty = false := by
    cases children with
    | nil => simp at hlen
    | cons a l => rfl
  simp [renderRecAux, hne, hlen, childResults]

/-- C2. Through the worker-pool boundary, the auth-token-expiry exception
is the only failure type propagated: whenever any child task raises it
(directly or as the `__cause__` of a wrapped exception), the level aborts
by re-raising that `AWSTokenExpiredError`; when no child does, the level
returns successfully and every other raised exception is captured as a
per-child error entry instead of propagating.  (An aborting level is
itself an auth-raising child of its parent level, so the abort propagates
to the top of the recursion.) -/
theorem c2_auth_expiry_sole_pool_propagation
    (maxDepth currentDepth fuel : Nat) (pname pmsg : String)
    (children : List AppTree)
    (hd : currentDepth < maxDepth)
    (hfuel : maxDepth - currentDepth = fuel + 1)
    (hlen : 1 < children.length) :
    (∀ a : PyExc,
      (childResults maxDepth fuel children).findSome? (fun pr => poolAbort pr.2) = some a →
      render_recursive (.node pname (.ok (true, pmsg)) children) maxDepth currentDepth true =
        .error a ∧ isAWSExpired a = true) ∧
    ((∀ pr ∈ childResults maxDepth fuel children, poolAbort pr.2 = none) →
      ∃ re errs,
        render_recursive (.node pname (.ok (true, pmsg)) children) maxDepth currentDepth true =
          .ok (true, levelMsg re errs, pname :: re) ∧
        ∀ pr ∈ childResults maxDepth fuel children, ∀ e, pr.2 = .error e →
          (pr.1 ++ ": " ++ excMsg e) ∈ errs) := by
  constructor
  · intro a ha
    obtain ⟨pr, hmem, hpr⟩ := List.exists_of_findSome?_eq_some ha
    refine ⟨?_, poolAbort_isAWS pr.2 a hpr⟩
    rw [render_recursive_eq_aux _ _ _ _ hd, hfuel,
      renderRecAux_node_pool _ _ _ _ _ hlen, poolGather_abort _ a ha]
  · intro hno
    obtain ⟨re, errs, heq, hf, he, hs⟩ := poolGather_ok_of_no_abort _ hno
    refine ⟨re, errs, ?_, he⟩
    rw [render_recursive_eq_aux _ _ _ _ hd, hfuel,
      renderRecAux_node_pool _ _ _ _ _ hlen, heq]

/-- Witness for C2: a sibling raising an exception whose `__cause__` is
the `AWSTokenExpiredError` aborts the whole level with that error. -/
theorem c2_auth_expiry_sole_pool_propagation_witness :
    ((childResults 5 1
        [AppTree.node "c1" (.ok (true, "m1")) [],
         AppTree.node "c2" (.error (.other "wrap" (some (.awsTokenExpired none)))) []]).findSome?
      (fun pr => poolAbort pr.2) = some (.awsTokenExpired none)) ∧
    render_recursive
        (.node "p" (.ok (true, "m"))
          [AppTree.node "c1" (.ok (true, "m1")) [],
           AppTree.node "c2" (.error (.other "wrap" (some (.awsTokenExpired none)))) []])
        5 3 true = .error (.awsTokenExpired none) ∧
    isAWSExpired (.awsTokenExpired none) = true := by
  have hfs : (childResults 5 1
      [AppTree.node "c1" (.ok (true, "m1")) [],
       AppTree.node "c2" (.error (.other "wrap" (some (.awsTokenExpired none)))) []]).findSome?
      (fun pr => poolAbort pr.2) = some (.awsTokenExpired none) := rfl
  have h := (c2_auth_expiry_sole_pool_propagation 5 3 1 "p" "m"
    [AppTree.node "c1" (.ok (true, "m1")) [],
     AppTree.node "c2" (.error (.other "wrap" (some (.awsTokenExpired none)))) []]
    (by decide) rfl (by decide)).1 (.awsTokenExpired none) hfs
  exact ⟨hfs, h.1, h.2⟩

/-- `toString` on a string is the identity. -/
theorem toString_string (s : String) : toString s = s := rfl

/-- C1. In the worker-pool branch, when the top-level render succeeds and
no child raises an auth-expiry, a child's failure does not abort its
siblings: the level still returns success, every failed or
exception-raising child is recorded as a `childName: message` entry in the
collected errors (surfaced in the level's result message), and every
successful child's rendered names are still reported. -/
theorem c1_child_failures_do_not_abort_siblings
    (maxDepth currentDepth fuel : Nat) (pname pmsg : String)
    (children : List AppTree)
    (hd : currentDepth < maxDepth)
    (hfuel : maxDepth - currentDepth = fuel + 1)
    (hlen : 1 < children.length)
    (hno : ∀ pr ∈ childResults maxDepth fuel children, poolAbort pr.2 = none) :
    ∃ re errs,
      render_recursive (.node pname (.ok (true, pmsg)) children) maxDepth currentDepth true =
        .ok (true, levelMsg re errs, pname :: re) ∧
      (∀ pr ∈ childResults maxDepth fuel children, ∀ m g,
        pr.2 = .ok (false, m, g) → (pr.1 ++ ": " ++ m) ∈ errs) ∧
      (∀ pr ∈ childResults maxDepth fuel children, ∀ e,
        pr.2 = .error e → (pr.1 ++ ": " ++ excMsg e) ∈ errs) ∧
      (∀ pr ∈ childResults maxDepth fuel children, ∀ m g,
        pr.2 = .ok (true, m, g) → ∀ x ∈ g, x ∈ pname :: re) ∧
      (errs ≠ [] →
        levelMsg re errs =
          "Rendered with " ++ toString re.length ++ " nested resources" ++
            (" (errors: " ++ String.intercalate "; " errs ++ ")")) := by
  obtain ⟨re, errs, heq, hf, he, hs⟩ := poolGather_ok_of_no_abort _ hno
  refine ⟨re, errs, ?_, hf, he, ?_, ?_⟩
  · rw [render_recursive_eq_aux _ _ _ _ hd, hfuel,
      renderRecAux_node_pool _ _ _ _ _ hlen, heq]
  · intro pr hpr m g h2 x hx
    exact List.mem_cons_of_mem _ (hs pr hpr m g h2 x hx)
  · intro hne
    have hi : errs.isEmpty = false := by
      cases errs with
      | nil => exact absurd rfl hne
      | cons a l => rfl
    simp [levelMsg, hi, String.append_assoc, toString_string, String.append_empty]

/-- Witness for C1: one of three siblings fails, one raises a non-auth
exception; both are named in the collected errors while the successful
sibling is still reported and the level returns success. -/
theorem c1_child_failures_do_not_abort_siblings_witness :
    (3 < 5 ∧ 5 - 3 = 1 + 1 ∧
      1 < ([AppTree.node "c1" (.ok (true, "m1")) [],
            AppTree.node "c2" (.ok (false, "bad")) [],
            AppTree.node "c3" (.error (.other "boom" none)) []] : List AppTree).length) ∧
    ∃ re errs,
      render_recursive
          (.node "p" (.ok (true, "m"))
            [AppTree.node "c1" (.ok (true, "m1")) [],
             AppTree.node "c2" (.ok (false, "bad")) [],
             AppTree.node "c3" (.error (.other "boom" none)) []])
          5 3 true = .ok (true, levelMsg re errs, "p" :: re) ∧
      ("c2: bad") ∈ errs ∧ ("c3: boom") ∈ errs ∧ "c1" ∈ "p" :: re := by
  refine ⟨⟨by decide, rfl, by decide⟩, ?_⟩
  have hcr : childResults 5 1
      [AppTree.node "c1" (.ok (true, "m1")) [],
       AppTree.node "c2" (.ok (false, "bad")) [],
       AppTree.node "c3" (.error (.other "boom" none)) []] =
      [("c1", .ok (true, "m1", ["c1"])),
       ("c2", .ok (false, "bad", [])),
       ("c3", .error (.other "boom" none))] := rfl
  have hno : ∀ pr ∈ childResults 5 1
      [AppTree.node "c1" (.ok (true, "m1")) [],
       AppTree.node "c2" (.ok (false, "bad")) [],
       AppTree.node "c3" (.error (.other "boom" none)) []],
      poolAbort pr.2 = none := by
    intro pr hpr
    rw [hcr] at hpr
    rcases List.mem_cons.mp hpr with rfl | hpr
    · rfl
    rcases List.mem_cons.mp hpr with rfl | hpr
    · rfl
    rcases List.mem_cons.mp hpr with rfl | hpr
    · rfl
    exact absurd hpr (List.not_mem_nil _)
  obtain ⟨re, errs, heq, hf, he, hs, _⟩ :=
    c1_child_failures_do_not_abort_siblings 5 3 1 "p" "m"
      [AppTree.node "c1" (.ok (true, "m1")) [],
       AppTree.node "c2" (.ok (false, "bad")) [],
       AppTree.node "c3" (.error (.other "boom" none)) []]
      (by decide) rfl (by decide) hno
  refine ⟨re, errs, heq, ?_, ?_, ?_⟩
  · exact hf ("c2", .ok (false, "bad", [])) (by rw [hcr]; simp) "bad" [] rfl
  · exact he ("c3", .error (.other "boom" none)) (by rw [hcr]; simp)
      (.other "boom" none) rfl
  · exact hs ("c1", .ok (true, "m1", ["c1"])) (by rw [hcr]; simp)
      "m1" ["c1"] rfl "c1" (by simp)

/-- The `parse_docs` loop is the fold of dict updates over the
contributed identity/raw pairs. -/
theorem parseDocsLoop_eq_foldl (parseY : String → YamlOutcome)
    (hashF : String → Int) :
    ∀ (docsRaw : List String) (acc : List (String × String)),
      parseDocsLoop parseY hashF acc docsRaw =
        List.foldl (fun m kv => upsertAC m kv.1 kv.2) acc
          (docsRaw.filterMap (docKey parseY hashF)) := by
  intro docsRaw
  induction docsRaw with
  | nil => intro acc; rfl
  | cons raw rest ih =>
    intro acc
    by_cases h0 : pyStrip raw = ""
    · simp [parseDocsLoop, docKey, h0, ih]
    · cases hp : parseY (pyStrip raw) with
      | raised => simp [parseDocsLoop, docKey, h0, hp, ih]
      | value d =>
        cases d with
        | none => simp [parseDocsLoop, docKey, h0, hp, ih]
        | some d2 => simp [parseDocsLoop, docKey, h0, hp, ih]

/-- Looking up after a dict update. -/
theorem lookupAC_upsert {α : Type} :
    ∀ (m : List (String × α)) (k : String) (v : α) (k2 : String),
      lookupAC (upsertAC m k v) k2 =
        if k = k2 then some v else lookupAC m k2 := by
  intro m
  induction m with
  | nil =>
    intro k v k2
    by_cases h : k = k2 <;> simp [upsertAC, lookupAC, List.find?, h]
  | cons kv m ih =>
    intro k v k2
    obtain ⟨k0, v0⟩ := kv
    by_cases h0 : k0 = k
    · subst h0
      by_cases h2 : k0 = k2 <;>
        simp [upsertAC, lookupAC, List.find?, h2]
    · by_cases h2 : k0 = k2
      · subst h2
        have hk : ¬ k = k0 := fun h => h0 h.symm
        simp [upsertAC, lookupAC, List.find?, h0, hk]
      · simp only [upsertAC, if_neg h0]
        have l1 : lookupAC ((k0, v0) :: upsertAC m k v) k2 =
            lookupAC (upsertAC m k v) k2 := by
          simp [lookupAC, List.find?, h2]
        have l2 : lookupAC ((k0, v0) :: m) k2 = lookupAC m k2 := by
          simp [lookupAC, List.find?, h2]
        rw [l1, l2, ih]

/-- Looking up after folding dict updates: the **last** pair with the key
wins; with no such pair the initial map decides. -/
theorem lookupAC_foldl_upsert {α : Type} :
    ∀ (entries : List (String × α)) (acc : List (String × α)) (k : String),
      lookupAC (List.foldl (fun m kv => upsertAC m kv.1 kv.2) acc entries) k =
        orO ((entries.filterMap
          (fun kv => if kv.1 = k then some kv.2 else none)).getLast?)
          (lookupAC acc k) := by
  intro entries
  induction entries with
  | nil => intro acc k; rfl
  | cons kv rest ih =>
    intro acc k
    by_cases h : kv.1 = k
    · rw [List.foldl_cons, ih, lookupAC_upsert, if_pos h]
      rw [show (kv :: rest).filterMap
          (fun kv => if kv.1 = k then some kv.2 else none) =
          kv.2 :: rest.filterMap (fun kv => if kv.1 = k then some kv.2 else none) by
        simp [List.filterMap_cons, h]]
      rw [orO_getLast_cons]
    · rw [List.foldl_cons, ih, lookupAC_upsert, if_neg h]
      rw [show (kv :: rest).filterMap
          (fun kv => if kv.1 = k then some kv.2 else none) =
          rest.filterMap (fun kv => if kv.1 = k then some kv.2 else none) by
        simp [List.filterMap_cons, h]]

/-- C10. When several parseable documents of one stream share an identity
key, only the **last** one participates in the comparison: the map built
by `parse_docs` binds each identity to the raw text of the last document
with that identity (earlier duplicates are overwritten), and the per-
identity diff block is computed from exactly those last-bound raw texts on
both sides. -/
theorem c10_duplicate_identities_last_wins (parseY : String → YamlOutcome)
    (hashF : String → Int) (docsRaw : List String) (k : String)
    (udiff : UDiff) (maxLines : Nat) (bRaws nRaws : List String) :
    lookupAC (parseDocs parseY hashF docsRaw) k =
      lastRawFor parseY hashF docsRaw k ∧
    blockFor udiff maxLines
        (parseDocs parseY hashF bRaws) (parseDocs parseY hashF nRaws) k =
      blockFromRaws udiff maxLines
        ((lastRawFor parseY hashF bRaws k).getD "")
        ((lastRawFor parseY hashF nRaws k).getD "") k := by
  have hmain : ∀ raws : List String,
      lookupAC (parseDocs parseY hashF raws) k = lastRawFor parseY hashF raws k := by
    intro raws
    rw [show parseDocs parseY hashF raws = parseDocsLoop parseY hashF [] raws from rfl]
    rw [parseDocsLoop_eq_foldl, lookupAC_foldl_upsert]
    rw [show lookupAC ([] : List (String × String)) k = none from rfl]
    rw [orO_none_right]
    rfl
  refine ⟨hmain docsRaw, ?_⟩
  rw [show blockFor udiff maxLines (parseDocs parseY hashF bRaws)
      (parseDocs parseY hashF nRaws) k =
      blockFromRaws udiff maxLines
        ((lookupAC (parseDocs parseY hashF bRaws) k).getD "")
        ((lookupAC (parseDocs parseY hashF nRaws) k).getD "") k from rfl]
  rw [hmain bRaws, hmain nRaws]

/-! ### C9: template-variable resolution -/

/-- `String.mk` undoes `String.data`. -/
theorem mk_data (s : String) : String.mk s.data = s := rfl

/-- A plain character is not a newline. -/
theorem plainChar_ne_newline {c : Char} (h : plainChar c = true) : c ≠ '\n' := by
  intro rfl0
  subst rfl0
  exact absurd h (by decide)

/-- A plain character is not a closing brace. -/
theorem plainChar_ne_rbrace {c : Char} (h : plainChar c = true) : c ≠ '}' := by
  intro rfl0
  subst rfl0
  exact absurd h (by decide)

/-- A plain character is not an opening brace. -/
theorem plainChar_ne_lbrace {c : Char} (h : plainChar c = true) : c ≠ '{' := by
  intro rfl0
  subst rfl0
  exact absurd h (by decide)

/-- A plain character is not Python whitespace. -/
theorem plainChar_not_space {c : Char} (h : plainChar c = true) :
    isPySpace c = false := by
  simp only [plainChar, Bool.and_eq_true, Bool.not_eq_true'] at h
  exact h.2

/-- Matching a literal prefix of itself. -/
theorem expectL_append (p l : List Char) : expectL p (p ++ l) = some l := by
  induction p with
  | nil => rfl
  | cons c p ih => simp [expectL, ih]

/-- `dropWhile` on a list without Python whitespace. -/
theorem dropWhile_pySpace_eq_self (l : List Char)
    (h : ∀ c ∈ l, isPySpace c = false) : l.dropWhile isPySpace = l := by
  cases l with
  | nil => rfl
  | cons c m => simp [List.dropWhile_cons, h c (by simp)]

/-- `str.strip()` on a run of plain characters is the identity. -/
theorem pyStripL_of_plain (nm : List Char)
    (h : ∀ c ∈ nm, plainChar c = true) : pyStripL nm = nm := by
  unfold pyStripL
  rw [dropWhile_pySpace_eq_self nm (fun c hc => plainChar_not_space (h c hc))]
  rw [dropWhile_pySpace_eq_self nm.reverse
    (fun c hc => plainChar_not_space (h c (List.mem_reverse.mp hc)))]
  exact List.reverse_reverse nm

/-- The scans leave the empty list unchanged (any fuel). -/
theorem substScanF_nil (vars : List (String × String)) (fuel : Nat) :
    substScanF vars fuel [] = [] := by
  cases fuel <;> rfl

/-- The unescape scan leaves the empty list unchanged (any fuel). -/
theorem escScanF_nil (fuel : Nat) : escScanF fuel [] = [] := by
  cases fuel <;> rfl

/-! #### Character facts -/

/-- A whitespace character is not an opening brace. -/
theorem isPySpace_ne_lbrace {c : Char} (h : isPySpace c = true) : ¬(c = '{') := by
  intro hc
  subst hc
  simp [isPySpace] at h

/-- A whitespace character is not a closing brace. -/
theorem isPySpace_ne_rbrace {c : Char} (h : isPySpace c = true) : ¬(c = '}') := by
  intro hc
  subst hc
  simp [isPySpace] at h

/-- A plain character is not a backtick. -/
theorem plainChar_ne_btick {c : Char} (h : plainChar c = true) : ¬(c = btick) := by
  intro hc
  subst hc
  simp [plainChar] at h

/-- Components of `wsChar`. -/
theorem wsChar_space {c : Char} (h : wsChar c = true) : isPySpace c = true := by
  simp [wsChar] at h
  exact h.1

theorem wsChar_ne_newline {c : Char} (h : wsChar c = true) : ¬(c = '\n') := by
  simp [wsChar] at h
  exact h.2

/-! #### Length and fuel-irrelevance lemmas -/

/-- `expectL` consumes exactly the pattern. -/
theorem expectL_length :
    ∀ (p l t : List Char), expectL p l = some t → l.length = p.length + t.length := by
  intro p
  induction p with
  | nil =>
    intro l t h
    simp [expectL] at h
    subst h
    simp
  | cons d p ih =>
    intro l t h
    cases l with
    | nil => simp [expectL] at h
    | cons c l' =>
      unfold expectL at h
      by_cases hc : c = d
      · rw [if_pos hc] at h
        have := ih l' t h
        simp [List.length_cons]
        omega
      · rw [if_neg hc] at h
        simp at h

/-- The lazy substitution-group search consumes at least the group and the
closing braces. -/
theorem findCloseSub_length :
    ∀ (l g t : List Char), findCloseSub l = some (g, t) → t.length < l.length := by
  intro l
  induction l with
  | nil => intro g t h; simp [findCloseSub] at h
  | cons a rest ih =>
    intro g t h
    unfold findCloseSub at h
    by_cases han : a = '\n'
    · rw [if_pos han] at h; simp at h
    · rw [if_neg han] at h
      cases hexp : expectL ['}', '}'] rest with
      | some tail =>
        rw [hexp] at h
        have he := expectL_length _ _ _ hexp
        injection h with h2
        have ht : tail = t := congrArg Prod.snd h2
        subst ht
        simp at he ⊢
        omega
      | none =>
        rw [hexp] at h
        cases hfc : findCloseSub rest with
        | none => rw [hfc] at h; simp at h
        | some gt =>
          obtain ⟨g0, t0⟩ := gt
          rw [hfc, Option.map_some'] at h
          injection h with h2
          have ht : t0 = t := congrArg Prod.snd h2
          subst ht
          have := ih g0 t0 hfc
          simp
          omega

/-- A substitution-pattern match consumes at least one character. -/
theorem tryMatchSubst_length {l g t : List Char}
    (h : tryMatchSubst l = some (g, t)) : t.length < l.length := by
  unfold tryMatchSubst at h
  cases hexp : expectL ['{', '{'] l with
  | none => rw [hexp] at h; simp at h
  | some rest =>
    rw [hexp] at h
    have h1 := expectL_length _ _ _ hexp
    have h2 := findCloseSub_length rest g t h
    simp at h1
    omega

/-- Skipping whitespace never lengthens the input. -/
theorem skipWsL_length (l : List Char) : (skipWsL l).length ≤ l.length := by
  unfold skipWsL
  induction l with
  | nil => simp
  | cons c l ih =>
    rw [List.dropWhile_cons]
    by_cases h : isPySpace c = true
    · rw [if_pos h]
      exact le_trans ih (by simp)
    · rw [if_neg h]

/-- The opening escape matcher consumes at least one character. -/
theorem matchOpenEsc_length {l r : List Char}
    (h : matchOpenEsc l = some r) : r.length < l.length := by
  unfold matchOpenEsc at h
  cases h1 : expectL ['{', '{'] l with
  | none => rw [h1] at h; simp at h
  | some l1 =>
    rw [h1] at h
    have h' : (match expectL [btick, '{', '{', btick] (skipWsL l1) with
        | none => none
        | some l3 => expectL ['}', '}'] (skipWsL l3)) = some r := h
    cases h2 : expectL [btick, '{', '{', btick] (skipWsL l1) with
    | none => rw [h2] at h'; simp at h'
    | some l3 =>
      rw [h2] at h'
      have h3 : expectL ['}', '}'] (skipWsL l3) = some r := h'
      have e1 := expectL_length _ _ _ h1
      have e2 := expectL_length _ _ _ h2
      have e3 := expectL_length _ _ _ h3
      have s1 : (skipWsL l1).length ≤ l1.length := skipWsL_length _
      have s2 : (skipWsL l3).length ≤ l3.length := skipWsL_length _
      simp at e1 e2 e3
      omega

/-- The closing escape matcher consumes at least one character. -/
theorem matchCloseEsc_length {l r : List Char}
    (h : matchCloseEsc l = some r) : r.length < l.length := by
  unfold matchCloseEsc at h
  cases h1 : expectL ['{', '{'] l with
  | none => rw [h1] at h; simp at h
  | some l1 =>
    rw [h1] at h
    have h' : (match expectL [btick, '}', '}', btick] (skipWsL l1) with
        | none => none
        | some l3 => expectL ['}', '}'] (skipWsL l3)) = some r := h
    cases h2 : expectL [btick, '}', '}', btick] (skipWsL l1) with
    | none => rw [h2] at h'; simp at h'
    | some l3 =>
      rw [h2] at h'
      have h3 : expectL ['}', '}'] (skipWsL l3) = some r := h'
      have e1 := expectL_length _ _ _ h1
      have e2 := expectL_length _ _ _ h2
      have e3 := expectL_length _ _ _ h3
      have s1 : (skipWsL l1).length ≤ l1.length := skipWsL_length _
      have s2 : (skipWsL l3).length ≤ l3.length := skipWsL_length _
      simp at e1 e2 e3
      omega

/-- The lazy escape-group search consumes at least the group and the
closing idiom. -/
theorem findCloseEsc_length :
    ∀ (l g t : List Char), findCloseEsc l = some (g, t) → t.length < l.length := by
  intro l
  induction l with
  | nil => intro g t h; simp [findCloseEsc] at h
  | cons a rest ih =>
    intro g t h
    unfold findCloseEsc at h
    by_cases han : a = '\n'
    · rw [if_pos han] at h; simp at h
    · rw [if_neg han] at h
      cases hmc : matchCloseEsc rest with
      | some tail =>
        rw [hmc] at h
        have hl := matchCloseEsc_length hmc
        injection h with h2
        have ht : tail = t := congrArg Prod.snd h2
        subst ht
        simp
        omega
      | none =>
        rw [hmc] at h
        cases hfc : findCloseEsc rest with
        | none => rw [hfc] at h; simp at h
        | some gt =>
          obtain ⟨g0, t0⟩ := gt
          rw [hfc, Option.map_some'] at h
          injection h with h2
          have ht : t0 = t := congrArg Prod.snd h2
          subst ht
          have := ih g0 t0 hfc
          simp
          omega

/-- An unescape-pattern match consumes at least one character. -/
theorem tryMatchEsc_length {l g t : List Char}
    (h : tryMatchEsc l = some (g, t)) : t.length < l.length := by
  unfold tryMatchEsc at h
  cases hmo : matchOpenEsc l with
  | none => rw [hmo] at h; simp at h
  | some rest =>
    rw [hmo] at h
    have h1 := matchOpenEsc_length hmo
    have h2 := findCloseEsc_length rest g t h
    omega

/-- One step of the substitution scan at a matching position. -/
theorem substScanF_step_match (vars : List (String × String)) (fuel : Nat)
    (c : Char) (l g t2 : List Char)
    (h : tryMatchSubst (c :: l) = some (g, t2)) :
    substScanF vars (fuel + 1) (c :: l) =
      substReplacement vars g ++ substScanF vars fuel t2 := by
  rw [show substScanF vars (fuel + 1) (c :: l) =
      (match tryMatchSubst (c :: l) with
       | some gt => substReplacement vars gt.1 ++ substScanF vars fuel gt.2
       | none => c :: substScanF vars fuel l) from rfl]
  rw [h]

/-- One step of the unescape scan at a matching position. -/
theorem escScanF_step_match (fuel : Nat) (c : Char) (l g t2 : List Char)
    (h : tryMatchEsc (c :: l) = some (g, t2)) :
    escScanF (fuel + 1) (c :: l) =
      '{' :: '{' :: (g ++ '}' :: '}' :: escScanF fuel t2) := by
  rw [show escScanF (fuel + 1) (c :: l) =
      (match tryMatchEsc (c :: l) with
       | some gt => '{' :: '{' :: (gt.1 ++ '}' :: '}' :: escScanF fuel gt.2)
       | none => c :: escScanF fuel l) from rfl]
  rw [h]

/-- One step of the substitution scan at a non-matching position. -/
theorem substScanF_step_none (vars : List (String × String)) (fuel : Nat)
    (c : Char) (l : List Char) (h : tryMatchSubst (c :: l) = none) :
    substScanF vars (fuel + 1) (c :: l) = c :: substScanF vars fuel l := by
  rw [show substScanF vars (fuel + 1) (c :: l) =
      (match tryMatchSubst (c :: l) with
       | some gt => substReplacement vars gt.1 ++ substScanF vars fuel gt.2
       | none => c :: substScanF vars fuel l) from rfl]
  rw [h]

/-- One step of the unescape scan at a non-matching position. -/
theorem escScanF_step_none (fuel : Nat) (c : Char) (l : List Char)
    (h : tryMatchEsc (c :: l) = none) :
    escScanF (fuel + 1) (c :: l) = c :: escScanF fuel l := by
  rw [show escScanF (fuel + 1) (c :: l) =
      (match tryMatchEsc (c :: l) with
       | some gt => '{' :: '{' :: (gt.1 ++ '}' :: '}' :: escScanF fuel gt.2)
       | none => c :: escScanF fuel l) from rfl]
  rw [h]

/-- The substitution scan does not depend on the fuel once it covers the
input. -/
theorem substScanF_fuel (vars : List (String × String)) :
    ∀ (f1 : Nat) (l : List Char) (f2 : Nat), l.length ≤ f1 → l.length ≤ f2 →
      substScanF vars f1 l = substScanF vars f2 l := by
  intro f1
  induction f1 with
  | zero =>
    intro l f2 h1 _
    have hl : l = [] := List.eq_nil_of_length_eq_zero (Nat.le_zero.mp h1)
    subst hl
    rw [substScanF_nil, substScanF_nil]
  | succ f ih =>
    intro l f2 h1 h2
    cases l with
    | nil => rw [substScanF_nil, substScanF_nil]
    | cons c l' =>
      cases f2 with
      | zero => simp at h2
      | succ g =>
        cases htm : tryMatchSubst (c :: l') with
        | some gt =>
          obtain ⟨gr, t2⟩ := gt
          rw [substScanF_step_match vars f c l' gr t2 htm,
              substScanF_step_match vars g c l' gr t2 htm]
          have hlt := tryMatchSubst_length htm
          simp at h1 h2 hlt
          rw [ih t2 g (by omega) (by omega)]
        | none =>
          rw [substScanF_step_none vars f c l' htm,
              substScanF_step_none vars g c l' htm]
          simp at h1 h2
          rw [ih l' g (by omega) (by omega)]

/-- The unescape scan does not depend on the fuel once it covers the
input. -/
theorem escScanF_fuel :
    ∀ (f1 : Nat) (l : List Char) (f2 : Nat), l.length ≤ f1 → l.length ≤ f2 →
      escScanF f1 l = escScanF f2 l := by
  intro f1
  induction f1 with
  | zero =>
    intro l f2 h1 _
    have hl : l = [] := List.eq_nil_of_length_eq_zero (Nat.le_zero.mp h1)
    subst hl
    rw [escScanF_nil, escScanF_nil]
  | succ f ih =>
    intro l f2 h1 h2
    cases l with
    | nil => rw [escScanF_nil, escScanF_nil]
    | cons c l' =>
      cases f2 with
      | zero => simp at h2
      | succ g =>
        cases htm : tryMatchEsc (c :: l') with
        | some gt =>
          obtain ⟨gr, t2⟩ := gt
          rw [escScanF_step_match f c l' gr t2 htm,
              escScanF_step_match g c l' gr t2 htm]
          have hlt := tryMatchEsc_length htm
          simp at h1 h2 hlt
          rw [ih t2 g (by omega) (by omega)]
        | none =>
          rw [escScanF_step_none f c l' htm,
              escScanF_step_none g c l' htm]
          simp at h1 h2
          rw [ih l' g (by omega) (by omega)]

/-! #### Non-matching positions -/

/-- No substitution match starts at a character other than an opening
brace. -/
theorem tryMatchSubst_not_lbrace (c : Char) (l : List Char) (hc : ¬(c = '{')) :
    tryMatchSubst (c :: l) = none := by
  simp [tryMatchSubst, expectL, hc]

/-- No unescape match starts at a character other than an opening brace. -/
theorem tryMatchEsc_not_lbrace (c : Char) (l : List Char) (hc : ¬(c = '{')) :
    tryMatchEsc (c :: l) = none := by
  simp [tryMatchEsc, matchOpenEsc, expectL, hc]

/-- No unescape match starts at a single opening brace followed by a
non-brace character. -/
theorem tryMatchEsc_one_lbrace (c : Char) (l : List Char) (hc : ¬(c = '{')) :
    tryMatchEsc ('{' :: c :: l) = none := by
  simp [tryMatchEsc, matchOpenEsc, expectL, hc]

/-- Dropping over a uniformly satisfied prefix. -/
theorem dropWhile_append_of_all (p : Char → Bool) (w l : List Char)
    (hw : ∀ c ∈ w, p c = true) :
    List.dropWhile p (w ++ l) = List.dropWhile p l := by
  induction w with
  | nil => rfl
  | cons a w ih =>
    rw [List.cons_append, List.dropWhile_cons]
    simp [hw a (by simp)]
    exact ih (fun c hc => hw c (by simp [hc]))

/-- No unescape match starts at `{{` followed by whitespace and then a
plain (non-backtick, non-whitespace) character: the `\s*` of the opening
idiom skips the whitespace and then fails to find a backtick. -/
theorem tryMatchEsc_ws_plain (w1 : List Char) (c0 : Char) (z : List Char)
    (hw1 : ∀ c ∈ w1, isPySpace c = true)
    (hc0s : isPySpace c0 = false) (hc0b : ¬(c0 = btick)) :
    tryMatchEsc ('{' :: '{' :: (w1 ++ c0 :: z)) = none := by
  have hskip : skipWsL (w1 ++ c0 :: z) = c0 :: z := by
    unfold skipWsL
    rw [dropWhile_append_of_all _ _ _ hw1]
    simp [List.dropWhile_cons, hc0s]
  simp [tryMatchEsc, matchOpenEsc, expectL, hskip, hc0b]

/-! #### Scanning past match-free text -/

/-- The substitution scan copies brace-free text verbatim. -/
theorem substScanF_text (vars : List (String × String)) :
    ∀ (p rest : List Char), (∀ c ∈ p, ¬(c = '{')) →
      ∀ fuel, (p ++ rest).length ≤ fuel →
      substScanF vars fuel (p ++ rest) = p ++ substScanF vars fuel rest := by
  intro p
  induction p with
  | nil => intro rest _ fuel _; simp
  | cons c p ih =>
    intro rest hp fuel hf
    cases fuel with
    | zero => simp at hf
    | succ f =>
      rw [show (c :: p) ++ rest = c :: (p ++ rest) from rfl]
      rw [substScanF_step_none vars f c (p ++ rest)
        (tryMatchSubst_not_lbrace c _ (hp c (by simp)))]
      have hf2 : (p ++ rest).length ≤ f := by simp at hf ⊢; omega
      rw [ih rest (fun d hd => hp d (by simp [hd])) f hf2]
      have hr : rest.length ≤ f := by simp at hf2; omega
      rw [substScanF_fuel vars f rest (f + 1) hr (by omega)]
      rfl

/-- The unescape scan copies brace-free text verbatim. -/
theorem escScanF_text :
    ∀ (p rest : List Char), (∀ c ∈ p, ¬(c = '{')) →
      ∀ fuel, (p ++ rest).length ≤ fuel →
      escScanF fuel (p ++ rest) = p ++ escScanF fuel rest := by
  intro p
  induction p with
  | nil => intro rest _ fuel _; simp
  | cons c p ih =>
    intro rest hp fuel hf
    cases fuel with
    | zero => simp at hf
    | succ f =>
      rw [show (c :: p) ++ rest = c :: (p ++ rest) from rfl]
      rw [escScanF_step_none f c (p ++ rest)
        (tryMatchEsc_not_lbrace c _ (hp c (by simp)))]
      have hf2 : (p ++ rest).length ≤ f := by simp at hf ⊢; omega
      rw [ih rest (fun d hd => hp d (by simp [hd])) f hf2]
      have hr : rest.length ≤ f := by simp at hf2; omega
      rw [escScanF_fuel f rest (f + 1) hr (by omega)]
      rfl

/-! Generalised token-matching lemmas (the group may contain whitespace
around the identifier). -/

/-- The lazy group search finds exactly the group when the group contains
no closing brace and no newline. -/
theorem findCloseSub_name :
    ∀ (nm : List Char), nm ≠ [] → (∀ c ∈ nm, ¬(c = '}') ∧ ¬(c = '\n')) →
      ∀ t, findCloseSub (nm ++ '}' :: '}' :: t) = some (nm, t) := by
  intro nm
  induction nm with
  | nil => intro h; exact absurd rfl h
  | cons c nm2 ih =>
    intro _ hpl t
    have hcn : ¬(c = '\n') := (hpl c (by simp)).2
    cases nm2 with
    | nil =>
      show findCloseSub (c :: ('}' :: '}' :: t)) = some ([c], t)
      simp [findCloseSub, hcn, expectL]
    | cons d nm3 =>
      have hdne : ¬(d = '}') := (hpl d (by simp)).1
      have hih := ih (by simp) (fun e he => hpl e (by simp [he])) t
      have hexp : expectL ['}', '}'] ((d :: nm3) ++ '}' :: '}' :: t) = none := by
        simp [expectL, hdne]
      show findCloseSub (c :: ((d :: nm3) ++ '}' :: '}' :: t)) = some (c :: d :: nm3, t)
      rw [show findCloseSub (c :: ((d :: nm3) ++ '}' :: '}' :: t)) =
          (if c = '\n' then none
           else
             match expectL ['}', '}'] ((d :: nm3) ++ '}' :: '}' :: t) with
             | some tail => some ([c], tail)
             | none =>
               (findCloseSub ((d :: nm3) ++ '}' :: '}' :: t)).map
                 (fun gt => (c :: gt.1, gt.2))) from rfl]
      rw [if_neg hcn, hexp, hih]
      rfl

/-- Matching the substitution pattern against a full token. -/
theorem tryMatchSubst_token (nm : List Char) (hne : nm ≠ [])
    (hpl : ∀ c ∈ nm, ¬(c = '}') ∧ ¬(c = '\n')) (t : List Char) :
    tryMatchSubst ('{' :: '{' :: (nm ++ '}' :: '}' :: t)) = some (nm, t) := by
  simp only [tryMatchSubst, expectL, if_pos]
  exact findCloseSub_name nm hne hpl t

theorem matchOpenEsc_esc (x : List Char) :
    matchOpenEsc ('{' :: '{' :: btick :: '{' :: '{' :: btick :: '}' :: '}' :: x) =
      some x := by
  have h1 : isPySpace btick = false := by decide
  have h2 : isPySpace '}' = false := by decide
  simp [matchOpenEsc, expectL, skipWsL, List.dropWhile_cons, h1, h2]

theorem matchCloseEsc_esc (x : List Char) :
    matchCloseEsc ('{' :: '{' :: btick :: '}' :: '}' :: btick :: '}' :: '}' :: x) =
      some x := by
  have h1 : isPySpace btick = false := by decide
  have h2 : isPySpace '}' = false := by decide
  simp [matchCloseEsc, expectL, skipWsL, List.dropWhile_cons, h1, h2]

theorem matchCloseEsc_ne_lbrace (d : Char) (l : List Char) (hd : ¬(d = '{')) :
    matchCloseEsc (d :: l) = none := by
  simp [matchCloseEsc, expectL, hd]

/-- The lazy escape-group search finds exactly the group when the group
contains no opening brace and no newline. -/
theorem findCloseEsc_name :
    ∀ (nm : List Char), nm ≠ [] → (∀ c ∈ nm, ¬(c = '{') ∧ ¬(c = '\n')) →
      ∀ t, findCloseEsc
          (nm ++ '{' :: '{' :: btick :: '}' :: '}' :: btick :: '}' :: '}' :: t) =
        some (nm, t) := by
  intro nm
  induction nm with
  | nil => intro h; exact absurd rfl h
  | cons c nm2 ih =>
    intro _ hpl t
    have hcn : ¬(c = '\n') := (hpl c (by simp)).2
    cases nm2 with
    | nil =>
      show findCloseEsc
          (c :: ('{' :: '{' :: btick :: '}' :: '}' :: btick :: '}' :: '}' :: t)) =
        some ([c], t)
      simp only [findCloseEsc, hcn, if_false, matchCloseEsc_esc]
    | cons d nm3 =>
      have hdne : ¬(d = '{') := (hpl d (by simp)).1
      have hih := ih (by simp) (fun e he => hpl e (by simp [he])) t
      have hmc : matchCloseEsc ((d :: nm3) ++
          '{' :: '{' :: btick :: '}' :: '}' :: btick :: '}' :: '}' :: t) = none := by
        rw [show (d :: nm3) ++
            '{' :: '{' :: btick :: '}' :: '}' :: btick :: '}' :: '}' :: t =
            d :: (nm3 ++ '{' :: '{' :: btick :: '}' :: '}' :: btick :: '}' :: '}' :: t)
          from rfl]
        exact matchCloseEsc_ne_lbrace d _ hdne
      show findCloseEsc (c :: ((d :: nm3) ++
          '{' :: '{' :: btick :: '}' :: '}' :: btick :: '}' :: '}' :: t)) =
        some (c :: d :: nm3, t)
      rw [show findCloseEsc (c :: ((d :: nm3) ++
          '{' :: '{' :: btick :: '}' :: '}' :: btick :: '}' :: '}' :: t)) =
          (if c = '\n' then none
           else
             match matchCloseEsc ((d :: nm3) ++
                 '{' :: '{' :: btick :: '}' :: '}' :: btick :: '}' :: '}' :: t) with
             | some tail => some ([c], tail)
             | none =>
               (findCloseEsc ((d :: nm3) ++
                   '{' :: '{' :: btick :: '}' :: '}' :: btick :: '}' :: '}' :: t)).map
                 (fun gt => (c :: gt.1, gt.2))) from rfl]
      rw [if_neg hcn, hmc, hih]
      rfl

/-- Matching the unescape pattern against the full escaped idiom. -/
theorem tryMatchEsc_token (nm : List Char) (hne : nm ≠ [])
    (hpl : ∀ c ∈ nm, ¬(c = '{') ∧ ¬(c = '\n')) (t : List Char) :
    tryMatchEsc ('{' :: '{' :: btick :: '{' :: '{' :: btick :: '}' :: '}' ::
        (nm ++ '{' :: '{' :: btick :: '}' :: '}' :: btick :: '}' :: '}' :: t)) =
      some (nm, t) := by
  unfold tryMatchEsc
  rw [matchOpenEsc_esc]
  exact findCloseEsc_name nm hne hpl t

/-! #### Stripping a whitespace-padded identifier -/

/-- `str.strip` of whitespace, then an all-plain identifier, then
whitespace, is the identifier. -/
theorem pyStripL_sandwich (w1 nm w2 : List Char)
    (hw1 : ∀ c ∈ w1, isPySpace c = true) (hw2 : ∀ c ∈ w2, isPySpace c = true)
    (hne : nm ≠ []) (hnm : ∀ c ∈ nm, isPySpace c = false) :
    pyStripL (w1 ++ (nm ++ w2)) = nm := by
  obtain ⟨c0, nm', rfl⟩ : ∃ c0 nm', nm = c0 :: nm' := by
    cases nm with
    | nil => exact absurd rfl hne
    | cons c0 nm' => exact ⟨c0, nm', rfl⟩
  unfold pyStripL
  rw [dropWhile_append_of_all _ _ _ hw1]
  rw [show (c0 :: nm') ++ w2 = c0 :: (nm' ++ w2) from rfl]
  rw [show List.dropWhile isPySpace (c0 :: (nm' ++ w2)) = c0 :: (nm' ++ w2) from by
    simp [List.dropWhile_cons, hnm c0 (by simp)]]
  rw [show (c0 :: (nm' ++ w2)).reverse = w2.reverse ++ (c0 :: nm').reverse from by
    simp]
  rw [dropWhile_append_of_all _ _ _
    (fun c hc => hw2 c (List.mem_reverse.mp hc))]
  rw [dropWhile_pySpace_eq_self _
    (fun c hc => hnm c (List.mem_reverse.mp hc))]
  exact List.reverse_reverse _

/-! #### Whole-token steps of each scan -/

/-- The substitution scan on a `{{ws1 name ws2}}` token: the token is
replaced by the value bound to the stripped identifier, or kept verbatim
when the identifier is unbound, and the scan continues after the token. -/
theorem substScanF_token_step (vars : List (String × String))
    (w1 nm w2 rest : List Char)
    (hw1 : ∀ c ∈ w1, wsChar c = true) (hw2 : ∀ c ∈ w2, wsChar c = true)
    (hne : nm ≠ []) (hpl : ∀ c ∈ nm, plainChar c = true) :
    ∀ fuel, ('{' :: '{' :: (w1 ++ (nm ++ (w2 ++ '}' :: '}' :: rest)))).length ≤ fuel →
    substScanF vars fuel ('{' :: '{' :: (w1 ++ (nm ++ (w2 ++ '}' :: '}' :: rest)))) =
      (match lookupAC vars (String.mk nm) with
       | some v => v.data
       | none => '{' :: '{' :: ((w1 ++ (nm ++ w2)) ++ ['}', '}'])) ++
        substScanF vars fuel rest := by
  intro fuel hf
  cases fuel with
  | zero => simp at hf
  | succ f =>
    have hshape : w1 ++ (nm ++ (w2 ++ '}' :: '}' :: rest)) =
        (w1 ++ (nm ++ w2)) ++ '}' :: '}' :: rest := by
      simp [List.append_assoc]
    have hgne : (w1 ++ (nm ++ w2)) ≠ [] := by
      intro h
      rcases List.append_eq_nil.mp h with ⟨_, h2⟩
      rcases List.append_eq_nil.mp h2 with ⟨h3, _⟩
      exact hne h3
    have hg : ∀ c ∈ w1 ++ (nm ++ w2), ¬(c = '}') ∧ ¬(c = '\n') := by
      intro c hc
      rcases List.mem_append.mp hc with h | h
      · exact ⟨isPySpace_ne_rbrace (wsChar_space (hw1 c h)),
          wsChar_ne_newline (hw1 c h)⟩
      · rcases List.mem_append.mp h with h2 | h2
        · exact ⟨plainChar_ne_rbrace (hpl c h2), plainChar_ne_newline (hpl c h2)⟩
        · exact ⟨isPySpace_ne_rbrace (wsChar_space (hw2 c h2)),
            wsChar_ne_newline (hw2 c h2)⟩
    rw [hshape]
    rw [substScanF_step_match vars f _ _ _ _
      (tryMatchSubst_token (w1 ++ (nm ++ w2)) hgne hg rest)]
    have hstrip : pyStripL (w1 ++ (nm ++ w2)) = nm :=
      pyStripL_sandwich w1 nm w2
        (fun c hc => wsChar_space (hw1 c hc))
        (fun c hc => wsChar_space (hw2 c hc))
        hne (fun c hc => plainChar_not_space (hpl c hc))
    rw [show substReplacement vars (w1 ++ (nm ++ w2)) =
        (match lookupAC vars (String.mk (pyStripL (w1 ++ (nm ++ w2)))) with
         | some v => v.data
         | none => '{' :: '{' :: ((w1 ++ (nm ++ w2)) ++ ['}', '}'])) from rfl]
    rw [hstrip]
    have hr : rest.length ≤ f := by
      rw [hshape] at hf
      simp at hf
      omega
    rw [substScanF_fuel vars f rest (f + 1) hr (by omega)]

/-- The unescape scan on a full escaped token: it is rewritten to the
plain token with the same inner characters, and the scan continues after
the token. -/
theorem escScanF_esc_step (w1 nm w2 rest : List Char)
    (hw1 : ∀ c ∈ w1, wsChar c = true) (hw2 : ∀ c ∈ w2, wsChar c = true)
    (hne : nm ≠ []) (hpl : ∀ c ∈ nm, plainChar c = true) :
    ∀ fuel,
    ('{' :: '{' :: btick :: '{' :: '{' :: btick :: '}' :: '}' ::
        ((w1 ++ (nm ++ w2)) ++
          '{' :: '{' :: btick :: '}' :: '}' :: btick :: '}' :: '}' :: rest)).length
      ≤ fuel →
    escScanF fuel ('{' :: '{' :: btick :: '{' :: '{' :: btick :: '}' :: '}' ::
        ((w1 ++ (nm ++ w2)) ++
          '{' :: '{' :: btick :: '}' :: '}' :: btick :: '}' :: '}' :: rest)) =
      '{' :: '{' :: ((w1 ++ (nm ++ w2)) ++ '}' :: '}' :: escScanF fuel rest) := by
  intro fuel hf
  cases fuel with
  | zero => simp at hf
  | succ f =>
    have hgne : (w1 ++ (nm ++ w2)) ≠ [] := by
      intro h
      rcases List.append_eq_nil.mp h with ⟨_, h2⟩
      rcases List.append_eq_nil.mp h2 with ⟨h3, _⟩
      exact hne h3
    have hg : ∀ c ∈ w1 ++ (nm ++ w2), ¬(c = '{') ∧ ¬(c = '\n') := by
      intro c hc
      rcases List.mem_append.mp hc with h | h
      · exact ⟨isPySpace_ne_lbrace (wsChar_space (hw1 c h)),
          wsChar_ne_newline (hw1 c h)⟩
      · rcases List.mem_append.mp h with h2 | h2
        · exact ⟨plainChar_ne_lbrace (hpl c h2), plainChar_ne_newline (hpl c h2)⟩
        · exact ⟨isPySpace_ne_lbrace (wsChar_space (hw2 c h2)),
            wsChar_ne_newline (hw2 c h2)⟩
    rw [escScanF_step_match f _ _ _ _
      (tryMatchEsc_token (w1 ++ (nm ++ w2)) hgne hg rest)]
    have hr : rest.length ≤ f := by
      simp at hf
      omega
    rw [escScanF_fuel f rest (f + 1) hr (by omega)]

/-- The unescape scan leaves a plain `{{ws1 name ws2}}` token unchanged:
no unescape match starts at any of its positions. -/
theorem escScanF_plain_step (w1 nm w2 rest : List Char)
    (hw1 : ∀ c ∈ w1, wsChar c = true) (hw2 : ∀ c ∈ w2, wsChar c = true)
    (hne : nm ≠ []) (hpl : ∀ c ∈ nm, plainChar c = true) :
    ∀ fuel, ('{' :: '{' :: (w1 ++ (nm ++ (w2 ++ '}' :: '}' :: rest)))).length ≤ fuel →
    escScanF fuel ('{' :: '{' :: (w1 ++ (nm ++ (w2 ++ '}' :: '}' :: rest)))) =
      '{' :: '{' :: (w1 ++ (nm ++ (w2 ++ '}' :: '}' :: escScanF fuel rest))) := by
  obtain ⟨c0, nm', rfl⟩ : ∃ c0 nm', nm = c0 :: nm' := by
    cases nm with
    | nil => exact absurd rfl hne
    | cons c0 nm' => exact ⟨c0, nm', rfl⟩
  intro fuel hf
  cases fuel with
  | zero => simp at hf
  | succ f =>
    cases f with
    | zero => simp at hf
    | succ f2 =>
      have hc0 : plainChar c0 = true := hpl c0 (by simp)
      have hn1 : tryMatchEsc
          ('{' :: '{' :: (w1 ++ ((c0 :: nm') ++ (w2 ++ '}' :: '}' :: rest)))) =
          none := by
        rw [show (c0 :: nm') ++ (w2 ++ '}' :: '}' :: rest) =
            c0 :: (nm' ++ (w2 ++ '}' :: '}' :: rest)) from rfl]
        exact tryMatchEsc_ws_plain w1 c0 _
          (fun c hc => wsChar_space (hw1 c hc))
          (plainChar_not_space hc0) (plainChar_ne_btick hc0)
      have hn2 : tryMatchEsc
          ('{' :: (w1 ++ ((c0 :: nm') ++ (w2 ++ '}' :: '}' :: rest)))) = none := by
        cases w1 with
        | nil =>
          rw [show ([] : List Char) ++ ((c0 :: nm') ++ (w2 ++ '}' :: '}' :: rest)) =
              c0 :: (nm' ++ (w2 ++ '}' :: '}' :: rest)) from rfl]
          exact tryMatchEsc_one_lbrace c0 _ (plainChar_ne_lbrace hc0)
        | cons w ws =>
          rw [show (w :: ws) ++ ((c0 :: nm') ++ (w2 ++ '}' :: '}' :: rest)) =
              w :: (ws ++ ((c0 :: nm') ++ (w2 ++ '}' :: '}' :: rest))) from rfl]
          exact tryMatchEsc_one_lbrace w _
            (isPySpace_ne_lbrace (wsChar_space (hw1 w (by simp))))
      rw [escScanF_step_none (f2 + 1) _ _ hn1]
      rw [escScanF_step_none f2 _ _ hn2]
      have hshape : w1 ++ ((c0 :: nm') ++ (w2 ++ '}' :: '}' :: rest)) =
          (w1 ++ ((c0 :: nm') ++ (w2 ++ ['}', '}']))) ++ rest := by
        simp [List.append_assoc]
      have hp : ∀ c ∈ w1 ++ ((c0 :: nm') ++ (w2 ++ ['}', '}'])), ¬(c = '{') := by
        intro c hc
        rcases List.mem_append.mp hc with h | h
        · exact isPySpace_ne_lbrace (wsChar_space (hw1 c h))
        · rcases List.mem_append.mp h with h2 | h2
          · exact plainChar_ne_lbrace (hpl c h2)
          · rcases List.mem_append.mp h2 with h3 | h3
            · exact isPySpace_ne_lbrace (wsChar_space (hw2 c h3))
            · simp at h3
              subst h3
              decide
      have hlen : ((w1 ++ ((c0 :: nm') ++ (w2 ++ ['}', '}']))) ++ rest).length
          ≤ f2 := by
        simp at hf ⊢
        omega
      rw [hshape]
      rw [escScanF_text _ rest hp f2 hlen]
      have hr : rest.length ≤ f2 := by
        simp at hlen
        omega
      rw [escScanF_fuel f2 rest (f2 + 1 + 1) hr (by omega)]
      simp [List.append_assoc]

/-! #### Scanning a whole rendered shape -/

/-- The unescape scan over a rendered well-formed shape rewrites every
escaped token to its plain token and leaves everything else unchanged. -/
theorem escScan_segs :
    ∀ segs : List TmplSeg, (∀ s ∈ segs, SegWF s) →
      ∀ fuel, (tmplRenderL segs).length ≤ fuel →
      escScanF fuel (tmplRenderL segs) = tmplRenderL (segs.map segUnescaped) := by
  intro segs
  induction segs with
  | nil => intro _ fuel _; simp [tmplRenderL, escScanF_nil]
  | cons s rest ih =>
    intro hwf fuel hf
    have hs := hwf s (by simp)
    have hrest : ∀ s2 ∈ rest, SegWF s2 := fun s2 hs2 => hwf s2 (by simp [hs2])
    have hfr : (tmplRenderL rest).length ≤ fuel := by
      rw [show tmplRenderL (s :: rest) = segDataL s ++ tmplRenderL rest from rfl]
        at hf
      simp at hf
      omega
    cases s with
    | text str =>
      rw [show tmplRenderL (TmplSeg.text str :: rest) =
          str.data ++ tmplRenderL rest from rfl]
      rw [escScanF_text str.data (tmplRenderL rest) hs fuel
        (by rw [show tmplRenderL (TmplSeg.text str :: rest) =
            str.data ++ tmplRenderL rest from rfl] at hf; exact hf)]
      rw [ih hrest fuel hfr]
      rfl
    | plainVar w1 nm w2 =>
      obtain ⟨hw1, hw2, hne, hpl⟩ := hs
      have hshape : tmplRenderL (TmplSeg.plainVar w1 nm w2 :: rest) =
          '{' :: '{' :: (w1.data ++ (nm.data ++ (w2.data ++
            '}' :: '}' :: tmplRenderL rest))) := by
        rw [show tmplRenderL (TmplSeg.plainVar w1 nm w2 :: rest) =
            segDataL (TmplSeg.plainVar w1 nm w2) ++ tmplRenderL rest from rfl]
        simp [segDataL, List.append_assoc]
      rw [hshape] at hf ⊢
      rw [escScanF_plain_step w1.data nm.data w2.data (tmplRenderL rest)
        hw1 hw2 hne hpl fuel hf]
      rw [ih hrest fuel hfr]
      rw [show tmplRenderL ((TmplSeg.plainVar w1 nm w2 :: rest).map segUnescaped) =
          segDataL (TmplSeg.plainVar w1 nm w2) ++
            tmplRenderL (rest.map segUnescaped) from rfl]
      simp [segDataL, List.append_assoc]
    | escVar w1 nm w2 =>
      obtain ⟨hw1, hw2, hne, hpl⟩ := hs
      have hshape : tmplRenderL (TmplSeg.escVar w1 nm w2 :: rest) =
          '{' :: '{' :: btick :: '{' :: '{' :: btick :: '}' :: '}' ::
            ((w1.data ++ (nm.data ++ w2.data)) ++
              '{' :: '{' :: btick :: '}' :: '}' :: btick :: '}' :: '}' ::
                tmplRenderL rest) := by
        rw [show tmplRenderL (TmplSeg.escVar w1 nm w2 :: rest) =
            segDataL (TmplSeg.escVar w1 nm w2) ++ tmplRenderL rest from rfl]
        simp [segDataL, List.append_assoc]
      rw [hshape] at hf ⊢
      rw [escScanF_esc_step w1.data nm.data w2.data (tmplRenderL rest)
        hw1 hw2 hne hpl fuel hf]
      rw [ih hrest fuel hfr]
      rw [show tmplRenderL ((TmplSeg.escVar w1 nm w2 :: rest).map segUnescaped) =
          segDataL (TmplSeg.plainVar w1 nm w2) ++
            tmplRenderL (rest.map segUnescaped) from rfl]
      simp [segDataL, List.append_assoc]

/-- The substitution scan over a rendered well-formed escape-free shape
resolves every token and leaves text unchanged. -/
theorem substScan_segs (vars : List (String × String)) :
    ∀ segs : List TmplSeg, (∀ s ∈ segs, SegWF s ∧ segNoEsc s) →
      ∀ fuel, (tmplRenderL segs).length ≤ fuel →
      substScanF vars fuel (tmplRenderL segs) = tmplResolveL vars segs := by
  intro segs
  induction segs with
  | nil => intro _ fuel _; simp [tmplRenderL, tmplResolveL, substScanF_nil]
  | cons s rest ih =>
    intro hwf fuel hf
    have hs := (hwf s (by simp)).1
    have hrest : ∀ s2 ∈ rest, SegWF s2 ∧ segNoEsc s2 :=
      fun s2 hs2 => hwf s2 (by simp [hs2])
    have hfr : (tmplRenderL rest).length ≤ fuel := by
      rw [show tmplRenderL (s :: rest) = segDataL s ++ tmplRenderL rest from rfl]
        at hf
      simp at hf
      omega
    cases s with
    | text str =>
      rw [show tmplRenderL (TmplSeg.text str :: rest) =
          str.data ++ tmplRenderL rest from rfl]
      rw [substScanF_text vars str.data (tmplRenderL rest) hs fuel
        (by rw [show tmplRenderL (TmplSeg.text str :: rest) =
            str.data ++ tmplRenderL rest from rfl] at hf; exact hf)]
      rw [ih hrest fuel hfr]
      rfl
    | plainVar w1 nm w2 =>
      obtain ⟨hw1, hw2, hne, hpl⟩ := hs
      have hshape : tmplRenderL (TmplSeg.plainVar w1 nm w2 :: rest) =
          '{' :: '{' :: (w1.data ++ (nm.data ++ (w2.data ++
            '}' :: '}' :: tmplRenderL rest))) := by
        rw [show tmplRenderL (TmplSeg.plainVar w1 nm w2 :: rest) =
            segDataL (TmplSeg.plainVar w1 nm w2) ++ tmplRenderL rest from rfl]
        simp [segDataL, List.append_assoc]
      rw [hshape] at hf ⊢
      rw [substScanF_token_step vars w1.data nm.data w2.data (tmplRenderL rest)
        hw1 hw2 hne hpl fuel hf]
      rw [ih hrest fuel hfr]
      rw [show tmplResolveL vars (TmplSeg.plainVar w1 nm w2 :: rest) =
          segResolveL vars (TmplSeg.plainVar w1 nm w2) ++
            tmplResolveL vars rest from rfl]
      rw [mk_data]
      cases hlk : lookupAC vars nm with
      | some v => simp [segResolveL, hlk]
      | none => simp [segResolveL, hlk, List.append_assoc]
    | escVar w1 nm w2 =>
      exact ((hwf (TmplSeg.escVar w1 nm w2) (by simp)).2).elim

/-! #### The unescaped shape -/

/-- The unescape pass preserves well-formedness and leaves no escaped
token. -/
theorem segUnescaped_wf (s : TmplSeg) (h : SegWF s) :
    SegWF (segUnescaped s) ∧ segNoEsc (segUnescaped s) := by
  cases s with
  | text str => exact ⟨h, trivial⟩
  | plainVar w1 nm w2 => exact ⟨h, trivial⟩
  | escVar w1 nm w2 => exact ⟨h, trivial⟩

/-- Resolution is invariant under the unescape pass on shapes. -/
theorem segResolveL_unescaped (vars : List (String × String)) (s : TmplSeg) :
    segResolveL vars (segUnescaped s) = segResolveL vars s := by
  cases s <;> rfl

theorem tmplResolveL_unescaped (vars : List (String × String)) :
    ∀ segs : List TmplSeg,
      tmplResolveL vars (segs.map segUnescaped) = tmplResolveL vars segs := by
  intro segs
  induction segs with
  | nil => rfl
  | cons s rest ih =>
    rw [List.map_cons]
    rw [show tmplResolveL vars (segUnescaped s :: rest.map segUnescaped) =
        segResolveL vars (segUnescaped s) ++
          tmplResolveL vars (rest.map segUnescaped) from rfl]
    rw [segResolveL_unescaped, ih]
    rfl

/-- C9.  Template-variable resolution is the claimed two-pass process on
every well-formed template shape: an arbitrary interleaving of brace-free
literal text, plain `{{ws identifier ws}}` tokens and doubly-escaped
tokens.  The first pass rewrites every escaped token (and only those) into
the plain token with the same inner characters; the second pass replaces
every plain-token occurrence whose whitespace-stripped identifier is bound
in the variable map by the string value, and leaves occurrences with
unbound identifiers verbatim; text around and between tokens is preserved.
(Both passes and their composition are total Lean functions, so resolution
returns a result for every input.) -/
theorem c9_template_resolution_two_pass (segs : List TmplSeg)
    (vars : List (String × String)) (hwf : ∀ s ∈ segs, SegWF s) :
    unescapePass (tmplRender segs) = tmplRender (segs.map segUnescaped) ∧
    substitutePass (tmplRender (segs.map segUnescaped)) vars =
      tmplResolve segs vars ∧
    resolve_template_variables (tmplRender segs) vars = tmplResolve segs vars := by
  have hmap : ∀ s ∈ segs.map segUnescaped, SegWF s ∧ segNoEsc s := by
    intro s hs
    rcases List.mem_map.mp hs with ⟨s0, hs0, rfl⟩
    exact segUnescaped_wf s0 (hwf s0 hs0)
  have h1 : unescapePass (tmplRender segs) = tmplRender (segs.map segUnescaped) := by
    unfold unescapePass tmplRender
    rw [show (String.mk (tmplRenderL segs)).data = tmplRenderL segs from rfl]
    rw [escScan_segs segs hwf (tmplRenderL segs).length (le_refl _)]
  have h2 : substitutePass (tmplRender (segs.map segUnescaped)) vars =
      tmplResolve segs vars := by
    unfold substitutePass tmplRender tmplResolve
    rw [show (String.mk (tmplRenderL (segs.map segUnescaped))).data =
        tmplRenderL (segs.map segUnescaped) from rfl]
    rw [substScan_segs vars (segs.map segUnescaped) hmap
      (tmplRenderL (segs.map segUnescaped)).length (le_refl _)]
    rw [tmplResolveL_unescaped]
  refine ⟨h1, h2, ?_⟩
  unfold resolve_template_variables
  rw [h1, h2]

/-- Witness for C9: a template mixing literal text, an escaped token with
whitespace-padded identifier, a plain token with an unbound identifier and
a plain token with a whitespace-padded bound identifier resolves as
claimed. -/
theorem c9_template_resolution_two_pass_witness :
    (∀ s ∈ [TmplSeg.text "x: ", TmplSeg.escVar " " "origin" " ",
        TmplSeg.text "\n", TmplSeg.plainVar "" "missing" "",
        TmplSeg.text "-", TmplSeg.plainVar " " "origin" ""], SegWF s) ∧
    resolve_template_variables
        "x: \x7b\x7b\x60\x7b\x7b\x60\x7d\x7d origin \x7b\x7b\x60\x7d\x7d\x60\x7d\x7d\n\x7b\x7bmissing\x7d\x7d-\x7b\x7b origin\x7d\x7d"
        [("origin", "foo")] = "x: foo\n\x7b\x7bmissing\x7d\x7d-foo" := by
  have hwf : ∀ s ∈ [TmplSeg.text "x: ", TmplSeg.escVar " " "origin" " ",
      TmplSeg.text "\n", TmplSeg.plainVar "" "missing" "",
      TmplSeg.text "-", TmplSeg.plainVar " " "origin" ""], SegWF s := by
    intro s hs
    simp only [List.mem_cons, List.not_mem_nil, or_false] at hs
    rcases hs with rfl | rfl | rfl | rfl | rfl | rfl
    · show ∀ c ∈ ("x: " : String).data, ¬(c = '{')
      decide
    · exact ⟨by decide, by decide, by decide, by decide⟩
    · show ∀ c ∈ ("\n" : String).data, ¬(c = '{')
      decide
    · exact ⟨by decide, by decide, by decide, by decide⟩
    · show ∀ c ∈ ("-" : String).data, ¬(c = '{')
      decide
    · exact ⟨by decide, by decide, by decide, by decide⟩
  refine ⟨hwf, ?_⟩
  have h := (c9_template_resolution_two_pass
    [TmplSeg.text "x: ", TmplSeg.escVar " " "origin" " ",
      TmplSeg.text "\n", TmplSeg.plainVar "" "missing" "",
      TmplSeg.text "-", TmplSeg.plainVar " " "origin" ""]
    [("origin", "foo")] hwf).2.2
  have hr : tmplRender [TmplSeg.text "x: ", TmplSeg.escVar " " "origin" " ",
      TmplSeg.text "\n", TmplSeg.plainVar "" "missing" "",
      TmplSeg.text "-", TmplSeg.plainVar " " "origin" ""] =
      "x: \x7b\x7b\x60\x7b\x7b\x60\x7d\x7d origin \x7b\x7b\x60\x7d\x7d\x60\x7d\x7d\n\x7b\x7bmissing\x7d\x7d-\x7b\x7b origin\x7d\x7d" := by
    decide
  have hv : tmplResolve [TmplSeg.text "x: ", TmplSeg.escVar " " "origin" " ",
      TmplSeg.text "\n", TmplSeg.plainVar "" "missing" "",
      TmplSeg.text "-", TmplSeg.plainVar " " "origin" ""]
      [("origin", "foo")] = "x: foo\n\x7b\x7bmissing\x7d\x7d-foo" := by
    decide
  rw [hr, hv] at h
  exact h

/-! ### C6: diff output structure -/

/-- Python string order is total. -/
theorem charListLeb_total : ∀ l m : List Char,
    charListLeb l m = true ∨ charListLeb m l = true := by
  intro l
  induction l with
  | nil => intro m; left; rfl
  | cons c l ih =>
    intro m
    cases m with
    | nil => right; rfl
    | cons d m2 =>
      by_cases h : c = d
      · subst h
        rcases ih m2 with h2 | h2
        · left; simpa [charListLeb] using h2
        · right; simpa [charListLeb] using h2
      · have h2 : ¬ d = c := fun hh => h hh.symm
        rcases lt_trichotomy c d with hlt | heq | hgt
        · left; simp [charListLeb, h, hlt]
        · exact absurd heq h
        · right; simp [charListLeb, h2, hgt]

/-- Python string order is transitive. -/
theorem charListLeb_trans : ∀ l m n : List Char,
    charListLeb l m = true → charListLeb m n = true →
    charListLeb l n = true := by
  intro l
  induction l with
  | nil => intro m n _ _; rfl
  | cons c l ih =>
    intro m n h1 h2
    cases m with
    | nil => exact absurd h1 (by simp [charListLeb])
    | cons d m2 =>
      cases n with
      | nil => exact absurd h2 (by simp [charListLeb])
      | cons e n2 =>
        by_cases hcd : c = d
        · subst hcd
          by_cases hde : c = e
          · subst hde
            simp only [charListLeb, if_pos rfl] at h1 h2 ⊢
            exact ih m2 n2 h1 h2
          · simp only [charListLeb, if_pos rfl] at h1
            simp only [charListLeb, if_neg hde] at h2 ⊢
            exact h2
        · simp only [charListLeb, if_neg hcd, decide_eq_true_eq] at h1
          by_cases hde : d = e
          · subst hde
            simp [charListLeb, hcd, h1]
          · simp only [charListLeb, if_neg hde, decide_eq_true_eq] at h2
            have hce : c < e := lt_trans h1 h2
            simp [charListLeb, ne_of_lt hce, hce]

/-- Sorting identities is a permutation. -/
theorem sortStr_perm (l : List String) : (sortStr l).Perm l :=
  List.perm_insertionSort _ l

/-- Sorted output of `sortStr`. -/
theorem sortStr_sorted (l : List String) :
    List.Pairwise (fun a b => strLeb a b = true) (sortStr l) := by
  haveI : IsTotal String (fun a b => strLeb a b = true) :=
    ⟨fun a b => charListLeb_total a.data b.data⟩
  haveI : IsTrans String (fun a b => strLeb a b = true) :=
    ⟨fun a b c h1 h2 => charListLeb_trans a.data b.data c.data h1 h2⟩
  exact List.sorted_insertionSort _ l

/-- Every pair of fetched raw texts satisfies `BlockSpec`, and when the
unified-diff collaborator emits its documented `--- fromfile` header the
changed block is preceded by the identity through its label. -/
theorem blockSpec_holds (udiff : UDiff) (braw nraw id : String) :
    BlockSpec udiff braw nraw id := by
  refine ⟨?_, ?_, ?_, ?_⟩
  · intro h
    simp [blockFromRaws, h]
  · intro hb hn
    subst hb
    have hne2 : ("" : String) ≠ nraw := fun hh => hn hh.symm
    constructor
    · simp [blockFromRaws, hne2, hn]
    · refine ⟨((pySplitLines nraw).take 250).map
        (fun line => "+" ++ pyRstrip line ++ "\n"),
        (if 250 < (pySplitLines nraw).length
         then [moreLinesNote ((pySplitLines nraw).length - 250)] else []), rfl, rfl, ?_, ?_⟩
      · simp
      · by_cases hl : 250 < (pySplitLines nraw).length
        · simp [hl]
        · simp [hl]
          omega
  · intro hn hb
    subst hn
    constructor
    · simp [blockFromRaws, hb]
    · refine ⟨((pySplitLines braw).take 250).map
        (fun line => "-" ++ pyRstrip line ++ "\n"),
        (if 250 < (pySplitLines braw).length
         then [moreLinesNote ((pySplitLines braw).length - 250)] else []), rfl, rfl, ?_, ?_⟩
      · simp
      · by_cases hl : 250 < (pySplitLines braw).length
        · simp [hl]
        · simp [hl]
          omega
  · intro hb hn hbn d hd
    constructor
    · intro hdnil
      subst hd
      simp [blockFromRaws, hb, hn, hbn, List.isEmpty_iff, hdnil]
    · intro hdne
      subst hd
      constructor
      · simp [blockFromRaws, hb, hn, hbn, List.isEmpty_iff, hdne]
      · by_cases hl : 250 <
            (udiff (pySplitLines braw) (pySplitLines nraw)
              ("baseline/" ++ id) ("current/" ++ id) 150).length
        · simp [hl]
        · simp [hl]
          omega

/-- C6. For every pair of manifest streams, the diff output is the
concatenation (separated by blank lines, as `"\n".join` of `\n`-terminated
blocks) of the per-identity blocks in strictly ascending identity order;
byte-identical identities produce no block; added and removed blocks list
at most 250 document lines with a truncation note beyond that; changed
blocks are the 150-context unified diff truncated to the 250-line cap and
preceded by their identity through the `baseline/<identity>` header. -/
theorem c6_diff_output_structure (parseY : String → YamlOutcome)
    (hashF : String → Int) (udiff : UDiff) (x y : String) :
    DiffOutputSpec parseY hashF udiff x y := by
  have hanchor : ∀ ds : List String,
      (if ds.isEmpty then ((false : Bool), ("" : String))
       else (true, String.intercalate "\n" ds)) =
      (!ds.isEmpty, String.intercalate "\n" ds) := by
    intro ds
    cases ds <;> rfl
  refine ⟨_, _, _, _, rfl, rfl, rfl, rfl, hanchor _, ?_, fun id => rfl,
    fun id _ => blockSpec_holds udiff _ _ id, ?_⟩
  · have hsorted := sortStr_sorted (allIdentities
      (parseDocs parseY hashF (pySplit x "\n---\n"))
      (parseDocs parseY hashF (pySplit y "\n---\n")))
    have hnodup : (sortStr (allIdentities
        (parseDocs parseY hashF (pySplit x "\n---\n"))
        (parseDocs parseY hashF (pySplit y "\n---\n")))).Nodup :=
      (List.Perm.nodup_iff (sortStr_perm _)).mpr (List.nodup_dedup _)
    exact hsorted.and hnodup
  · intro id _ braw nraw hbv hnv hb hn hbn hud2 hdne
    obtain ⟨rest, hrest⟩ := hud2 (pySplitLines braw) (pySplitLines nraw)
      ("baseline/" ++ id) ("current/" ++ id) 150 hdne
    by_cases hl : 250 < (udiff (pySplitLines braw) (pySplitLines nraw)
        ("baseline/" ++ id) ("current/" ++ id) 150).length
    · refine ⟨(rest.take 249) ++ [truncNote 250], ?_⟩
      rw [if_pos hl, hrest]
      rfl
    · exact ⟨rest, by rw [if_neg hl, hrest]⟩

/-- Witness for C6 on concrete streams, with a unified-diff collaborator
exhibiting the documented header behavior. -/
theorem c6_diff_output_structure_witness :
    DiffOutputSpec
      (fun s => if s = "a: 1" then .value (some ⟨some "A", some "x", none⟩)
        else .value none)
      (fun _ => 0)
      (fun a b f t _ => if a = b then [] else
        ["--- " ++ f ++ "\n", "+++ " ++ t ++ "\n"])
      "a: 1" "b: 2" :=
  c6_diff_output_structure _ _ _ _ _

end Rita
